import Mathlib

/-!
Verification development for the `sentence-finder` library (`src/index.ts`).

The TypeScript class `SentenceFinder` is shallowly embedded as a pure state
type `FinderState` together with functions `initState`, `searchFull`,
`suggestFull`, `mergeState` and `resetState`, each translated line by line
from the corresponding method of `src/index.ts`.

Modelling conventions:
* JavaScript `Map` (insertion ordered, key-equality based) is modelled as an
  association list `List (κ × α)`; `Map.get / Map.set / Map.has` become
  `mapGet / mapSet / mapHas`.  `Map.set` updates in place when the key is
  present and appends otherwise, exactly as in JS.
* JavaScript `Set<string>` (insertion ordered) is modelled as a duplicate-free
  `List String`, with `Set.add` becoming `setAdd`.
* JS strings are modelled by Lean `String`; string comparison (`<`), used by
  `Array.prototype.sort()`, is modelled by `lexLt` on the character list,
  which agrees with JS UTF-16 code-unit comparison on basic-plane strings.
* The Unicode classes `\p{L}\p{N}` of the default tokenizer and JS
  `toLowerCase` are modelled by `Char.isAlphanum` / `Char.toLower`; this is
  the ASCII fragment of the Unicode behaviour, which is all the claims need.
* `Array.prototype.sort(cmp)` (stable since ES2019) is modelled by
  `List.mergeSort` with `le a b := cmp a b ≤ 0`.
* The event registry is an external collaborator; only the `"search"`
  notification payload is modelled (as the `emits` list of `searchFull`),
  because one claim is about it.
-/

/-! ## Association lists modelling JavaScript `Map` -/

def mapGet {κ α : Type} [DecidableEq κ] : List (κ × α) → κ → Option α
  | [], _ => none
  | p :: rest, k => if p.1 = k then some p.2 else mapGet rest k

def mapHas {κ α : Type} [DecidableEq κ] (m : List (κ × α)) (k : κ) : Bool :=
  (mapGet m k).isSome

def mapSet {κ α : Type} [DecidableEq κ] : List (κ × α) → κ → α → List (κ × α)
  | [], k, v => [(k, v)]
  | p :: rest, k, v => if p.1 = k then (k, v) :: rest else p :: mapSet rest k v

def mapKeys {κ α : Type} (m : List (κ × α)) : List κ := m.map Prod.fst

/-! ## Strings: the pieces of JS string behaviour the source uses -/

/-- Models the JS word-character class `[\p{L}\p{N}]` (ASCII fragment). -/
def isWordChar (c : Char) : Bool := c.isAlphanum

/-- Models JS `String.prototype.toLowerCase` (ASCII fragment). -/
def lowerStr (s : String) : String := ⟨s.data.map Char.toLower⟩

/-- Models the JS emptiness test `!s.trim()`: true iff every character is
whitespace (in particular for the empty string). -/
def isBlank (s : String) : Bool := s.data.all Char.isWhitespace

/-- Models JS `s.startsWith(p)`. -/
def strStartsWith (s p : String) : Bool := p.data.isPrefixOf s.data

/-- Models JS `s.includes(t)` (substring containment). -/
def strContainsSub (s t : String) : Bool :=
  (List.range (s.data.length + 1)).any (fun i => t.data.isPrefixOf (s.data.drop i))

/-- Models JS `s.indexOf(t, pos)` for non-empty `t`: the least index `i ≥ pos`
at which `t` occurs in `s`, if any. -/
def listIndexOfFrom (s t : List Char) (pos : Nat) : Option Nat :=
  (List.range (s.length + 1)).find? (fun i => decide (pos ≤ i) && t.isPrefixOf (s.drop i))

/-- Lexicographic strict order on character lists by code point: models the JS
string `<` comparison used by `Array.prototype.sort()` (UTF-16 code-unit
order, which agrees with code-point order on the basic plane). -/
def lexLt : List Char → List Char → Bool
  | [], [] => false
  | [], _ :: _ => true
  | _ :: _, [] => false
  | a :: as, b :: bs =>
    if a.val < b.val then true
    else if b.val < a.val then false
    else lexLt as bs

def strLtB (a b : String) : Bool := lexLt a.data b.data

/-! ## Tokenizer (`default_tokenizer`, `normalize_word` of `src/index.ts`)

The source splits on `/[^\p{L}\p{N}]+/u` (runs of non-word characters) and
then drops empty fragments with `.filter(Boolean)`.  Splitting at every
single non-word character (`List.splitOnP`) differs from splitting at runs
only in extra empty fragments, which the very next `filter` removes, so the
composition is the same function. -/

def default_tokenizer (case_sensitive : Bool) (text : String) : List String :=
  (((text.data.splitOnP (fun c => !isWordChar c)).map (fun l => String.mk l)).filter
      (fun s => s ≠ "")).map
    (fun w => if case_sensitive then w else lowerStr w)

/-- `normalize_word` of the source: case-fold unless case-sensitive. -/
def normalize_word (case_sensitive : Bool) (word : String) : String :=
  if case_sensitive then word else lowerStr word

/-! ## Finder state and configuration -/

/-- The constructor-time configuration of a `SentenceFinder`: the public
fields `min_match_count`, `case_sensitive` and the `tokenizer` function value
chosen at construction (line 49 of the source).  None of them is mutated by
the operations under study. -/
structure Config where
  min_match_count : Nat
  case_sensitive : Bool
  tokenizer : String → List String

/-- A `SentenceFinder` with default options. -/
def defaultConfig : Config :=
  { min_match_count := 1, case_sensitive := false, tokenizer := default_tokenizer false }

/-- The private mutable state of a `SentenceFinder` instance. -/
structure FinderState where
  dictionary : List (String × List Nat)
  word_frequency : List (String × Nat)
  collection : List String
  index_map : List (String × Nat)
  sorted_dictionary_cache : Option (List String)

/-- The state right after the constructor ran: everything empty. -/
def emptyState : FinderState :=
  { dictionary := [], word_frequency := [], collection := [],
    index_map := [], sorted_dictionary_cache := none }

/-! ## `init` -/

/-- Body of the inner `for (const word of words)` loop of `init`:
normalize the word, append `i` to its dictionary entry (creating the entry
when absent), and bump its frequency. -/
def addWord (cfg : Config) (i : Nat) (st : FinderState) (word : String) : FinderState :=
  let key_word := normalize_word cfg.case_sensitive word
  { st with
    dictionary := mapSet st.dictionary key_word (((mapGet st.dictionary key_word).getD []) ++ [i]),
    word_frequency :=
      mapSet st.word_frequency key_word ((mapGet st.word_frequency key_word).getD 0 + 1) }

/-- Body of the outer `for (let i = 0; ...)` loop of `init`: record the
text→index entry, then process every token of the sentence. -/
def addSentence (cfg : Config) (st : FinderState) (p : Nat × String) : FinderState :=
  let st1 := { st with index_map := mapSet st.index_map p.2 p.1 }
  (cfg.tokenizer p.2).foldl (addWord cfg p.1) st1

/-- `init` after its argument check: copies the input into `collection`
(`[...input]`), clears the four maps and the cache, then indexes every
sentence.  The result does not depend on the prior state because everything
is cleared or replaced first. -/
def initState (cfg : Config) (input : List String) : FinderState :=
  input.enum.foldl (addSentence cfg)
    { dictionary := [], word_frequency := [], collection := input,
      index_map := [], sorted_dictionary_cache := none }

/-- Argument of `init` as seen at runtime: either an array of strings or a
value for which `Array.isArray` is false. -/
inductive InitArg where
  | arr (l : List String)
  | notArray

/-- `init` with its `Array.isArray` guard: on a non-array it throws before
touching any field, so the state is returned unchanged next to the error. -/
def init (cfg : Config) (st : FinderState) (a : InitArg) :
    FinderState × Option String :=
  match a with
  | .notArray => (st, some "Input must be an array")
  | .arr l => (initState cfg l, none)

/-! ## `reset` -/

/-- `reset()`: clears every field (hence independent of the prior state). -/
def resetState : FinderState := emptyState

/-! ## `search` -/

/-- JS `Set.add`: append the element unless already present. -/
def setAdd (s : List String) (t : String) : List String :=
  if t ∈ s then s else s ++ [t]

/-- The two lines guarding every index insertion in `search`:
`if (!sentence_matches.has(idx)) sentence_matches.set(idx, new Set());
 sentence_matches.get(idx)!.add(token);` -/
def smAdd (sm : List (Nat × List String)) (idx : Nat) (tok : String) :
    List (Nat × List String) :=
  match mapGet sm idx with
  | some s => mapSet sm idx (setAdd s tok)
  | none => mapSet sm idx [tok]

/-- `for (const idx of indexes) { ... add(token) }`. -/
def addIdxs (sm : List (Nat × List String)) (idxs : List Nat) (tok : String) :
    List (Nat × List String) :=
  idxs.foldl (fun sm idx => smAdd sm idx tok) sm

/-- One iteration of the `for (const token of tokens)` loop of `search`:
partial mode scans all dictionary entries for substring containment;
otherwise an exact dictionary hit is used verbatim, with a prefix scan over
all entries as the fallback. -/
def matchesForToken (dict : List (String × List Nat)) (pmode : Bool)
    (sm : List (Nat × List String)) (tok : String) : List (Nat × List String) :=
  if pmode then
    dict.foldl (fun sm p => if strContainsSub p.1 tok then addIdxs sm p.2 tok else sm) sm
  else
    match mapGet dict tok with
    | some idxs => addIdxs sm idxs tok
    | none =>
      dict.foldl (fun sm p => if strStartsWith p.1 tok then addIdxs sm p.2 tok else sm) sm

/-- The fully built `sentence_matches` map of a `search` call. -/
def buildMatches (dict : List (String × List Nat)) (tokens : List String)
    (pmode : Bool) : List (Nat × List String) :=
  tokens.foldl (matchesForToken dict pmode) []

/-- Score weight of one found occurrence: the
`if (st === token) ... else if (st.startsWith(token)) ... else ...`
branch of the ranking loop. -/
def weight (st_ tok : List Char) : Nat :=
  if st_ = tok then 10 else if tok.isPrefixOf st_ then 2 else 1

/-- The `while (true) { const found = st.indexOf(token, pos); ... }` loop of
the ranking pass, accumulating `localOcc`.  `pos` advances by
`token.length` per found occurrence, so for the non-empty tokens the
tokenizer produces, `st.length + 1` iterations always suffice (the fuel
argument makes that bound explicit). -/
def occLoop (st_ tok : List Char) : Nat → Nat → Nat → Nat
  | 0, _, acc => acc
  | fuel + 1, pos, acc =>
    match listIndexOfFrom st_ tok pos with
    | none => acc
    | some found => occLoop st_ tok fuel (found + tok.length) (acc + weight st_ tok)

/-- `localOcc` accumulated for one sentence token against one query token. -/
def localOcc (st_ tok : List Char) : Nat := occLoop st_ tok (st_.length + 1) 0 0

/-- Running minimum against a `Math.min` with `Number.POSITIVE_INFINITY` as
the initial value; `none` plays the role of `+∞`. -/
def minO : Option Nat → Nat → Option Nat
  | none, t => some t
  | some e, t => some (min e t)

/-- The `for (let tI = 0; ...)` scan of one sentence's tokens for one query
token: accumulates `occ` and threads the running `earliestMatchMap` value
(the interleaved `Map.set` calls to the same key collapse to the final
value). -/
def scanSentence (sentTokens : List String) (tok : String) (e0 : Option Nat) :
    Nat × Option Nat :=
  sentTokens.enum.foldl
    (fun acc p =>
      let lo := localOcc p.2.data tok.data
      if 0 < lo then (acc.1 + lo, minO acc.2 p.1) else acc)
    (0, e0)

/-- The normalized token sequence of the sentence at `idx`, recomputed by the
ranking pass (`this.tokenizer(this.collection[idx]).map(this.normalize_word)`). -/
def sentTokensOf (cfg : Config) (st : FinderState) (idx : Nat) : List String :=
  (cfg.tokenizer (st.collection.getD idx "")).map (normalize_word cfg.case_sensitive)

/-- The two ranking maps (`scoreMap`, `earliestMatchMap`) after both
initialisation loops and the nested `for token / for idx` accumulation. -/
def rankMaps (cfg : Config) (st : FinderState) (tokens : List String)
    (sm : List (Nat × List String)) : List (Nat × Nat) × List (Nat × Option Nat) :=
  let scoreMap0 : List (Nat × Nat) := sm.foldl (fun m p => mapSet m p.1 0) []
  let earliestMap0 : List (Nat × Option Nat) := sm.foldl (fun m p => mapSet m p.1 none) []
  tokens.foldl
    (fun ms tok =>
      sm.foldl
        (fun ms p =>
          let r := scanSentence (sentTokensOf cfg st p.1) tok ((mapGet ms.2 p.1).getD none)
          (mapSet ms.1 p.1 ((mapGet ms.1 p.1).getD 0 + r.1), mapSet ms.2 p.1 r.2))
        ms)
    (scoreMap0, earliestMap0)

/-- `a < b` on the `earliestMatchMap` values, `none` being `+∞`. -/
def optLtB : Option Nat → Option Nat → Bool
  | none, _ => false
  | some _, none => true
  | some a, some b => decide (a < b)

/-- `cmp a b ≤ 0` for the ranking comparator of `results.sort(...)`:
descending score, then ascending earliest match position (`Infinity !==
Infinity` is false in JS, so equal infinities fall through), then ascending
`index_map` position. -/
def rankLEb (im : List (String × Nat)) (scoreM : List (Nat × Nat))
    (eM : List (Nat × Option Nat)) (a b : String) : Bool :=
  let aI := (mapGet im a).getD 0
  let bI := (mapGet im b).getD 0
  let aS := (mapGet scoreM aI).getD 0
  let bS := (mapGet scoreM bI).getD 0
  if bS ≠ aS then decide (bS < aS)
  else
    let aE := (mapGet eM aI).getD none
    let bE := (mapGet eM bI).getD none
    if aE ≠ bE then optLtB aE bE
    else decide (aI ≤ bI)

/-- Result of a `search` call: the returned `results` array together with the
payloads of the `"search"` events fired during the call. -/
structure SearchResult where
  results : List String
  emits : List Nat

/-- Per-call options of `search`; `pmode` models `options.partial`. -/
structure SearchOpts where
  ranked : Bool
  min_match_opt : Option Nat
  pmode : Bool

/-- `search` of `src/index.ts`, lines 124-232.  Both early returns happen
before the `emit('search', ...)` at line 230, so they fire no event. -/
def searchFull (cfg : Config) (st : FinderState) (search_input : String)
    (opts : SearchOpts) : SearchResult :=
  if isBlank search_input then { results := [], emits := [] }
  else
    let min_match := opts.min_match_opt.getD cfg.min_match_count
    let tokens := (cfg.tokenizer search_input).map (normalize_word cfg.case_sensitive)
    if tokens.length = 0 then { results := [], emits := [] }
    else
      let sm := buildMatches st.dictionary tokens opts.pmode
      let results :=
        (sm.filter (fun p => min_match ≤ p.2.length)).map (fun p => st.collection.getD p.1 "")
      let results :=
        if opts.ranked then
          let ms := rankMaps cfg st tokens sm
          results.mergeSort (rankLEb st.index_map ms.1 ms.2)
        else results
      { results := results, emits := [results.length] }

/-! ## `suggest` -/

/-- `Array.from(this.dictionary.keys()).sort()`: the dictionary keys in
insertion order, sorted ascending by the JS string order. -/
def sortKeys (dict : List (String × List Nat)) : List String :=
  (mapKeys dict).mergeSort (fun a b => !strLtB b a)

/-- The `while (start < end)` lower-bound binary search of `suggest`. -/
def lowerBound (ws : List String) (p : String) (start stop : Nat) : Nat :=
  if h : start < stop then
    let mid := (start + stop) / 2
    if strLtB (ws.getD mid "") p then lowerBound ws p (mid + 1) stop
    else lowerBound ws p start mid
  else start
termination_by stop - start
decreasing_by
  · omega
  · have : (start + stop) / 2 < stop := by omega
    omega

/-- `suggest` of `src/index.ts`, lines 261-295: blank-guard, prefix
normalization, lazy cache rebuild, lower-bound binary search, forward scan
collecting keys with the prefix.  Returns the suggestions together with the
state (whose cache may have been materialised). -/
def suggestFull (cfg : Config) (st : FinderState) (px : String) :
    List String × FinderState :=
  if isBlank px then ([], st)
  else
    let norm := normalize_word cfg.case_sensitive px
    let sorted_words := st.sorted_dictionary_cache.getD (sortKeys st.dictionary)
    let start := lowerBound sorted_words norm 0 sorted_words.length
    ((sorted_words.drop start).takeWhile (fun w => strStartsWith w norm),
      { st with sorted_dictionary_cache := some sorted_words })

/-! ## `merge` -/

/-- `[...new Set(list)]`: deduplicate keeping first occurrences, in order. -/
def dedupKeepFirst (l : List Nat) : List Nat :=
  l.foldl (fun acc x => if x ∈ acc then acc else acc ++ [x]) []

/-- `merge` after its `instanceof` guard (`src/index.ts`, lines 325-366).
`cfgR`/`stR` are the receiving instance, `cfgS`/`stS` the argument.
Faithfully kept quirks: dictionary indices are rebased by `idx + offset`
using the position in the *other* collection (no compaction), the union with
an existing entry goes through `new Set` (dropping repeats), and the
deduplicating frequency path counts *sentences* containing the word (with
the other's tokenizer and the receiver's normalization), not occurrences. -/
def mergeState (cfgR cfgS : Config) (stR stS : FinderState) (dedup : Bool) :
    FinderState :=
  let offset := stR.collection.length
  let newSentences :=
    if dedup then stS.collection.filter (fun s => !stR.collection.contains s)
    else stS.collection
  let dict :=
    stS.dictionary.foldl
      (fun d p =>
        let adjusted :=
          (p.2.filter (fun idx =>
              !dedup ||
                (match stS.collection.get? idx with
                 | some s => newSentences.contains s
                 | none => false))).map (· + offset)
        match mapGet d p.1 with
        | some existing => mapSet d p.1 (dedupKeepFirst (existing ++ adjusted))
        | none => mapSet d p.1 adjusted)
      stR.dictionary
  let freq :=
    stS.word_frequency.foldl
      (fun f p =>
        let addFreq :=
          if dedup then
            newSentences.countP
              (fun s => ((cfgS.tokenizer s).map (normalize_word cfgR.case_sensitive)).contains p.1)
          else p.2
        mapSet f p.1 ((mapGet f p.1).getD 0 + addFreq))
      stR.word_frequency
  let imap :=
    newSentences.enum.foldl (fun m p => mapSet m p.2 (offset + p.1)) stR.index_map
  { dictionary := dict, word_frequency := freq,
    collection := stR.collection ++ newSentences,
    index_map := imap, sorted_dictionary_cache := none }

/-- Argument of `merge` as seen at runtime: either a genuine finder (with its
own configuration and state) or a value failing the `instanceof` check. -/
inductive MergeArg where
  | finder (cfg : Config) (st : FinderState)
  | notFinder

/-- `merge` with its `instanceof` guard: on an incompatible argument it
throws before touching any field. -/
def merge (cfgR : Config) (stR : FinderState) (a : MergeArg) (dedup : Bool) :
    FinderState × Option String :=
  match a with
  | .notFinder => (stR, some "Can only merge with another SentenceFinder instance")
  | .finder cfgS stS => (mergeState cfgR cfgS stR stS dedup, none)

/-! ## Basic lemmas about the `Map` model -/

theorem mapGet_mapSet_self {κ α : Type} [DecidableEq κ] (m : List (κ × α)) (k : κ) (v : α) :
    mapGet (mapSet m k v) k = some v := by
  induction m with
  | nil => simp [mapSet, mapGet]
  | cons p rest ih =>
    by_cases h : p.1 = k
    · simp [mapSet, h, mapGet]
    · simp [mapSet, h, mapGet, ih]

theorem mapGet_mapSet_ne {κ α : Type} [DecidableEq κ] (m : List (κ × α)) (k k' : κ) (v : α)
    (h : k' ≠ k) : mapGet (mapSet m k v) k' = mapGet m k' := by
  have hkk : ¬(k = k') := fun hh => h hh.symm
  induction m with
  | nil =>
    simp only [mapSet, mapGet]
    rw [if_neg hkk]
  | cons p rest ih =>
    by_cases hp : p.1 = k
    · have h2 : ¬(p.1 = k') := fun hh => h (hh.symm.trans hp)
      simp only [mapSet, if_pos hp, mapGet]
      rw [if_neg hkk, if_neg h2]
    · simp only [mapSet, if_neg hp, mapGet, ih]

theorem mapKeys_cons {κ α : Type} (p : κ × α) (rest : List (κ × α)) :
    mapKeys (p :: rest) = p.1 :: mapKeys rest := rfl

theorem mapKeys_mapSet {κ α : Type} [DecidableEq κ] (m : List (κ × α)) (k : κ) (v : α) :
    mapKeys (mapSet m k v) = if k ∈ mapKeys m then mapKeys m else mapKeys m ++ [k] := by
  induction m with
  | nil => simp [mapSet, mapKeys]
  | cons p rest ih =>
    by_cases h : p.1 = k
    · subst h
      simp [mapSet, mapKeys]
    · have hne : ¬(k = p.1) := fun hh => h hh.symm
      have hset : mapSet (p :: rest) k v = p :: mapSet rest k v := by
        simp [mapSet, h]
      rw [hset, mapKeys_cons, mapKeys_cons, ih]
      by_cases hk : k ∈ mapKeys rest
      · simp [hk, List.mem_cons, hne]
      · simp [hk, List.mem_cons, hne]

theorem nodup_mapKeys_mapSet {κ α : Type} [DecidableEq κ] (m : List (κ × α)) (k : κ) (v : α)
    (h : (mapKeys m).Nodup) : (mapKeys (mapSet m k v)).Nodup := by
  rw [mapKeys_mapSet]
  by_cases hk : k ∈ mapKeys m
  · simpa [hk]
  · simp only [hk, if_false]
    simpa [List.nodup_append] using ⟨h, fun h' => hk h'⟩

theorem mapGet_eq_none_of_not_mem {κ α : Type} [DecidableEq κ] (m : List (κ × α)) (k : κ)
    (h : k ∉ mapKeys m) : mapGet m k = none := by
  induction m with
  | nil => rfl
  | cons p rest ih =>
    rw [mapKeys_cons, List.mem_cons, not_or] at h
    show (if p.1 = k then some p.2 else mapGet rest k) = none
    rw [if_neg (fun hh => h.1 hh.symm), ih h.2]

theorem mapGet_isSome_iff_mem {κ α : Type} [DecidableEq κ] (m : List (κ × α)) (k : κ) :
    (mapGet m k).isSome = true ↔ k ∈ mapKeys m := by
  induction m with
  | nil => simp [mapGet, mapKeys]
  | cons p rest ih =>
    show (if p.1 = k then some p.2 else mapGet rest k).isSome = true ↔ k ∈ p.1 :: mapKeys rest
    by_cases h : p.1 = k
    · simp [h]
    · have h' : ¬(k = p.1) := fun hh => h hh.symm
      simp [if_neg h, ih, h']

/-- Pushing a property through a left fold. -/
theorem foldl_preserve {α β : Type} {P : α → Prop} (f : α → β → α)
    (hf : ∀ a b, P a → P (f a b)) : ∀ (l : List β) (a : α), P a → P (l.foldl f a)
  | [], _, h => h
  | b :: l, a, h => foldl_preserve f hf l (f a b) (hf a b h)

/-! ## Invariants of `initState` -/

/-- The frequency/dictionary coupling of the data model: every frequency
count equals the number of occurrence entries recorded for that token. -/
def freqInv (st : FinderState) : Prop :=
  ∀ w, (mapGet st.word_frequency w).getD 0 = ((mapGet st.dictionary w).getD []).length

theorem freqInv_addWord (cfg : Config) (i : Nat) (st : FinderState) (word : String)
    (h : freqInv st) : freqInv (addWord cfg i st word) := by
  intro w
  by_cases hw : w = normalize_word cfg.case_sensitive word
  · subst hw
    simp only [addWord, mapGet_mapSet_self, Option.getD_some]
    rw [h _]
    simp
  · simp only [addWord, mapGet_mapSet_ne _ _ _ _ hw]
    exact h w

theorem freqInv_addSentence (cfg : Config) (st : FinderState) (p : Nat × String)
    (h : freqInv st) : freqInv (addSentence cfg st p) := by
  unfold addSentence
  refine foldl_preserve _ (fun a b ha => freqInv_addWord cfg p.1 a b ha) _ _ ?_
  intro w
  exact h w

theorem freqInv_initState (cfg : Config) (input : List String) :
    freqInv (initState cfg input) := by
  unfold initState
  refine foldl_preserve _ (fun a b ha => freqInv_addSentence cfg a b ha) _ _ ?_
  intro w
  simp [mapGet]

/-! ## Heap model for aliasing (used by the claim about `init` copying) -/

/-- A store of mutable string arrays, addressed by references.  JS arrays are
heap objects; `init`'s `[...input]` spread copies the array's value out of
the heap at call time. -/
def Heap : Type := Nat → List String

def heapWrite (h : Heap) (r : Nat) (v : List String) : Heap :=
  fun r' => if r' = r then v else h r'

/-- Caller-side mutations of an array after passing it to `init`: wholesale
replacement of its contents, or appending an element (`push`). -/
inductive MutCmd where
  | writeArr (r : Nat) (v : List String)
  | pushArr (r : Nat) (s : String)

def mutStep (h : Heap) : MutCmd → Heap
  | .writeArr r v => heapWrite h r v
  | .pushArr r s => heapWrite h r (h r ++ [s])

/-- A caller mutation step: it changes only the heap, never the finder's
private state (which holds the copied value, not the reference). -/
def sessionStep : Heap × FinderState → MutCmd → Heap × FinderState
  | (h, st), c => (mutStep h c, st)

/-- Calling `init` on the array stored at reference `r`: the source reads the
array once (`[...input]`), so the resulting state is a function of the
array's value at call time. -/
def initSession (cfg : Config) (h : Heap) (st : FinderState) (r : Nat) :
    Heap × FinderState :=
  (h, (init cfg st (.arr (h r))).1)

/-! ## Claim theorems (first batch) -/

/-- Claim C1 (evidence of the code bug): merging with deduplication can leave
a dictionary index that is not a valid position of the Sentence Collection,
and the dictionary disagrees with the compacted `index_map`.  With
`R.init(["a"]); S.init(["a","b"]); R.merge(S, {deduplicate:true})`, the
retained sentence `"b"` is stored at collection position 1 (`index_map`
agrees), but its dictionary entry is rebased to `1 + 1 = 2`, out of range
for the length-2 collection — no compaction happens. -/
theorem c1_merge_dedup_dangling_index :
    mapGet (mergeState defaultConfig defaultConfig (initState defaultConfig ["a"])
        (initState defaultConfig ["a", "b"]) true).dictionary "b" = some [2] ∧
    (mergeState defaultConfig defaultConfig (initState defaultConfig ["a"])
        (initState defaultConfig ["a", "b"]) true).collection.length = 2 ∧
    mapGet (mergeState defaultConfig defaultConfig (initState defaultConfig ["a"])
        (initState defaultConfig ["a", "b"]) true).index_map "b" = some 1 := by
  refine ⟨?_, ?_, ?_⟩ <;> decide

/-- Claim C2, counterexample: after `R.init(["b"]); S.init(["b b"]);
R.merge(S)`, the frequency of `"b"` is `1 + 2 = 3`, but the dictionary entry
for `"b"` is `[0, 1]` (the merge unions entries through `new Set`, dropping
the repeated index), so the frequency does not equal the number of
occurrence entries. -/
theorem c2_counterexample :
    ¬ ((mapGet (mergeState defaultConfig defaultConfig (initState defaultConfig ["b"])
          (initState defaultConfig ["b b"]) false).word_frequency "b").getD 0 =
        ((mapGet (mergeState defaultConfig defaultConfig (initState defaultConfig ["b"])
          (initState defaultConfig ["b b"]) false).dictionary "b").getD []).length) := by
  decide

/-- Claim C2, amended: in every state produced by `init` (with any
configuration and input) or by `reset`, the Word Frequency Table entry of
every token equals the total number of occurrence entries for that token in
the dictionary (counting repeated sentence indices).  `merge` does not
preserve this invariant (see the counterexample). -/
theorem c2_freq_eq_dictionary_occurrences :
    (∀ (cfg : Config) (input : List String) (w : String),
        (mapGet (initState cfg input).word_frequency w).getD 0 =
          ((mapGet (initState cfg input).dictionary w).getD []).length) ∧
    (∀ w : String,
        (mapGet resetState.word_frequency w).getD 0 =
          ((mapGet resetState.dictionary w).getD []).length) :=
  ⟨fun cfg input w => freqInv_initState cfg input w, fun _ => rfl⟩

/-- Claim C7, counterexample: a whitespace-only query returns before the
`emit('search', ...)` line, so no `"search"` event fires at all — in
particular no zero-count notification reaches the listeners. -/
theorem c7_counterexample :
    ¬ (0 ∈ (searchFull defaultConfig (initState defaultConfig ["a"]) " "
        { ranked := false, min_match_opt := none, pmode := false }).emits) := by
  decide

/-- Claim C7, amended: for every index state, a search with an empty or
whitespace-only query returns an empty result sequence immediately and fires
no `"search"` notification (the early return precedes the emit). -/
theorem c7_blank_query_empty_and_silent (cfg : Config) (st : FinderState) (q : String)
    (opts : SearchOpts) (h : isBlank q = true) :
    (searchFull cfg st q opts).results = [] ∧ (searchFull cfg st q opts).emits = [] := by
  simp [searchFull, h]

theorem c7_blank_query_witness :
    isBlank " " = true ∧
      ((searchFull defaultConfig (initState defaultConfig ["a"]) " "
          { ranked := false, min_match_opt := none, pmode := false }).results = [] ∧
        (searchFull defaultConfig (initState defaultConfig ["a"]) " "
          { ranked := false, min_match_opt := none, pmode := false }).emits = []) :=
  ⟨by decide, c7_blank_query_empty_and_silent _ _ _ _ (by decide)⟩

theorem mergeState_collection (cfgR cfgS : Config) (stR stS : FinderState) (d : Bool) :
    (mergeState cfgR cfgS stR stS d).collection =
      stR.collection ++
        (if d then stS.collection.filter (fun s => !stR.collection.contains s)
         else stS.collection) := rfl

/-- Claim C8: merging the same source twice with deduplication never grows
the collection beyond the first merge: after the first deduplicating merge
every sentence of the source is present in the receiver, so the second merge
retains nothing.  (The claim's proviso — every sentence of `S` being a
duplicate of a sentence of `R` after the first merge — holds automatically.) -/
theorem c8_merge_dedup_idempotent (cfgR cfgS : Config) (stR stS : FinderState) :
    (mergeState cfgR cfgS (mergeState cfgR cfgS stR stS true) stS true).collection.length =
      (mergeState cfgR cfgS stR stS true).collection.length := by
  have hcol : ∀ st1 : FinderState,
      (mergeState cfgR cfgS st1 stS true).collection =
        st1.collection ++ stS.collection.filter (fun s => !st1.collection.contains s) :=
    fun _ => rfl
  rw [hcol, hcol]
  have hfil :
      stS.collection.filter
        (fun s => !(stR.collection ++
            stS.collection.filter (fun s => !stR.collection.contains s)).contains s) = [] := by
    rw [List.filter_eq_nil_iff]
    intro s hs
    simp only [Bool.not_eq_true', Bool.not_eq_false]
    apply List.elem_eq_true_of_mem
    rw [List.mem_append]
    by_cases hmem : s ∈ stR.collection
    · exact Or.inl hmem
    · refine Or.inr (List.mem_filter.mpr ⟨hs, ?_⟩)
      simp only [Bool.not_eq_true']
      exact Bool.not_eq_true _ ▸ fun hc => hmem (List.mem_of_elem_eq_true hc)
  rw [hfil]
  simp

/-- Claim C9: `init` raises its InvalidInput error exactly when the argument
is not an array, `merge` raises its InvalidArgument error exactly when the
argument is not a `SentenceFinder`, and in both failure cases the guard runs
before any mutation, so the full state is returned unchanged. -/
theorem c9_argument_checks :
    (∀ (cfg : Config) (st : FinderState),
        init cfg st .notArray = (st, some "Input must be an array")) ∧
    (∀ (cfg : Config) (st : FinderState) (l : List String),
        (init cfg st (.arr l)).2 = none) ∧
    (∀ (cfg : Config) (st : FinderState) (d : Bool),
        merge cfg st .notFinder d =
          (st, some "Can only merge with another SentenceFinder instance")) ∧
    (∀ (cfg : Config) (st : FinderState) (cfgS : Config) (stS : FinderState) (d : Bool),
        (merge cfg st (.finder cfgS stS) d).2 = none) :=
  ⟨fun _ _ => rfl, fun _ _ _ => rfl, fun _ _ _ => rfl, fun _ _ _ _ _ => rfl⟩

/-- Claim C10: `init` snapshots the caller's array (`[...input]`), so any
sequence of caller-side mutations of that array after the call leaves the
finder state — and hence all subsequent `search` and `suggest` results —
exactly what they would have been without the mutations. -/
theorem c10_init_copies_input (cfg : Config) (h : Heap) (st0 : FinderState) (r : Nat)
    (muts : List MutCmd) (q px : String) (opts : SearchOpts) :
    (muts.foldl sessionStep (initSession cfg h st0 r)).2 = initState cfg (h r) ∧
    searchFull cfg (muts.foldl sessionStep (initSession cfg h st0 r)).2 q opts =
      searchFull cfg (initState cfg (h r)) q opts ∧
    (suggestFull cfg (muts.foldl sessionStep (initSession cfg h st0 r)).2 px).1 =
      (suggestFull cfg (initState cfg (h r)) px).1 := by
  have key : ∀ (l : List MutCmd) (hs : Heap × FinderState), (l.foldl sessionStep hs).2 = hs.2 := by
    intro l
    induction l with
    | nil => intro hs; rfl
    | cons c rest ih =>
      intro hs
      rw [List.foldl_cons]
      rw [ih]
      cases hs
      rfl
  refine ⟨?_, ?_, ?_⟩ <;> rw [key muts _] <;> rfl

/-! ## More `Map` lemmas and `initState` field lemmas (for the merge claims) -/

theorem mapGet_append {κ α : Type} [DecidableEq κ] (a b : List (κ × α)) (k : κ) :
    mapGet (a ++ b) k = match mapGet a k with | some v => some v | none => mapGet b k := by
  induction a with
  | nil => rfl
  | cons p rest ih =>
    by_cases hp : p.1 = k <;> simp [mapGet, hp, ih]

theorem mapSet_eq_append_of_get_none {κ α : Type} [DecidableEq κ] (m : List (κ × α)) (k : κ)
    (v : α) (h : mapGet m k = none) : mapSet m k v = m ++ [(k, v)] := by
  induction m with
  | nil => rfl
  | cons p rest ih =>
    by_cases hp : p.1 = k
    · rw [show mapGet (p :: rest) k = some p.2 from by simp [mapGet, hp]] at h
      exact absurd h (by simp)
    · have h' : mapGet rest k = none := by
        rw [show mapGet (p :: rest) k = mapGet rest k from by simp [mapGet, hp]] at h
        exact h
      simp [mapSet, hp, ih h']

/-- Folding an insert-or-update body over an association list with distinct
keys, starting from a map containing none of them, only ever takes the
"absent" branch and reproduces the list (with adjusted values) in order. -/
theorem foldl_fresh_keys {α β : Type}
    (F : List (String × β) → String × α → List (String × β)) (adj : String × α → β)
    (hF : ∀ d p, mapGet d p.1 = none → F d p = mapSet d p.1 (adj p)) :
    ∀ (D : List (String × α)) (acc : List (String × β)),
      (mapKeys D).Nodup → (∀ p ∈ D, mapGet acc p.1 = none) →
      D.foldl F acc = acc ++ D.map (fun p => (p.1, adj p))
  | [], acc, _, _ => by simp
  | p :: D', acc, hnd, hacc => by
    have hget := hacc p (List.mem_cons_self p D')
    rw [List.foldl_cons, hF acc p hget, mapSet_eq_append_of_get_none _ _ _ hget]
    rw [mapKeys_cons, List.nodup_cons] at hnd
    have hacc' : ∀ q ∈ D', mapGet (acc ++ [(p.1, adj p)]) q.1 = none := by
      intro q hq
      rw [mapGet_append, hacc q (List.mem_cons_of_mem _ hq)]
      have hne : ¬(p.1 = q.1) := fun he => hnd.1 (he ▸ List.mem_map_of_mem Prod.fst hq)
      simp [mapGet, hne]
    rw [foldl_fresh_keys F adj hF D' (acc ++ [(p.1, adj p)]) hnd.2 hacc']
    simp

theorem finderState_ext (a b : FinderState)
    (h1 : a.dictionary = b.dictionary) (h2 : a.word_frequency = b.word_frequency)
    (h3 : a.collection = b.collection) (h4 : a.index_map = b.index_map)
    (h5 : a.sorted_dictionary_cache = b.sorted_dictionary_cache) : a = b := by
  cases a
  cases b
  congr

theorem addWord_collection (cfg : Config) (i : Nat) (st : FinderState) (word : String) :
    (addWord cfg i st word).collection = st.collection := rfl

theorem addWord_index_map (cfg : Config) (i : Nat) (st : FinderState) (word : String) :
    (addWord cfg i st word).index_map = st.index_map := rfl

theorem addWord_cache (cfg : Config) (i : Nat) (st : FinderState) (word : String) :
    (addWord cfg i st word).sorted_dictionary_cache = st.sorted_dictionary_cache := rfl

theorem foldl_addWord_index_map (cfg : Config) (i : Nat) :
    ∀ (l : List String) (st : FinderState),
      (l.foldl (addWord cfg i) st).index_map = st.index_map
  | [], _ => rfl
  | w :: l, st => by
    rw [List.foldl_cons, foldl_addWord_index_map cfg i l, addWord_index_map]

theorem addSentence_index_map (cfg : Config) (st : FinderState) (p : Nat × String) :
    (addSentence cfg st p).index_map = mapSet st.index_map p.2 p.1 := by
  unfold addSentence
  rw [foldl_addWord_index_map]

theorem foldl_addSentence_index_map (cfg : Config) :
    ∀ (L : List (Nat × String)) (st : FinderState),
      (L.foldl (addSentence cfg) st).index_map =
        L.foldl (fun m p => mapSet m p.2 p.1) st.index_map
  | [], _ => rfl
  | p :: L, st => by
    rw [List.foldl_cons, List.foldl_cons, foldl_addSentence_index_map cfg L,
      addSentence_index_map]

theorem initState_index_map (cfg : Config) (l : List String) :
    (initState cfg l).index_map = l.enum.foldl (fun m p => mapSet m p.2 p.1) [] := by
  unfold initState
  rw [foldl_addSentence_index_map]

theorem initState_collection (cfg : Config) (l : List String) :
    (initState cfg l).collection = l := by
  unfold initState
  refine foldl_preserve (P := fun (st : FinderState) => st.collection = l) _ ?_ _ _ rfl
  intro st p h
  unfold addSentence
  refine foldl_preserve (P := fun (st : FinderState) => st.collection = l) _ ?_ _ _ h
  intro st' w h'
  rw [addWord_collection]
  exact h'

theorem initState_cache (cfg : Config) (l : List String) :
    (initState cfg l).sorted_dictionary_cache = none := by
  unfold initState
  refine foldl_preserve (P := fun (st : FinderState) => st.sorted_dictionary_cache = none) _ ?_ _ _ rfl
  intro st p h
  unfold addSentence
  refine foldl_preserve (P := fun (st : FinderState) => st.sorted_dictionary_cache = none) _ ?_ _ _ h
  intro st' w h'
  rw [addWord_cache]
  exact h'

theorem initState_keys_nodup (cfg : Config) (l : List String) :
    (mapKeys (initState cfg l).dictionary).Nodup ∧
      (mapKeys (initState cfg l).word_frequency).Nodup := by
  unfold initState
  refine foldl_preserve
    (P := fun (st : FinderState) => (mapKeys st.dictionary).Nodup ∧ (mapKeys st.word_frequency).Nodup)
    _ ?_ _ _ ⟨List.nodup_nil, List.nodup_nil⟩
  intro st p h
  unfold addSentence
  refine foldl_preserve
    (P := fun (st : FinderState) => (mapKeys st.dictionary).Nodup ∧ (mapKeys st.word_frequency).Nodup)
    _ ?_ _ _ h
  intro st' w h'
  exact ⟨nodup_mapKeys_mapSet _ _ _ h'.1, nodup_mapKeys_mapSet _ _ _ h'.2⟩

/-- A case-sensitive configuration (constructor options
`{case_sensitive: true}`), used as the merge source's policy below. -/
def csConfig : Config :=
  { min_match_count := 1, case_sensitive := true, tokenizer := default_tokenizer true }

/-- Claim C3, counterexample: merging a case-sensitive index holding `["A"]`
into an empty case-insensitive receiver copies the dictionary key `"A"`
verbatim, whereas a fresh index with the receiving configuration on the same
combined sentence list indexes the key `"a"` — the contributions of the
newly added sentence are not re-derived with the receiving policy. -/
theorem c3_counterexample :
    ¬ ((mergeState defaultConfig csConfig emptyState
          (initState csConfig ["A"]) false).dictionary =
        (initState defaultConfig ["A"]).dictionary) := by
  decide

/-- Claim C3, amended: `merge` copies the other index's dictionary and
frequency entries verbatim (keys as normalized by the *other* index's
policy), rebasing indices by the offset; it does not re-tokenize with the
receiving tokenizer.  The fresh-initialization equality therefore holds in
the special case where copying coincides with re-derivation: an empty
receiver, no deduplication, and an other index built with the receiving
configuration — then merging is exactly initializing on the combined
(= other's) sentence list. -/
theorem c3_merge_into_empty_equals_init (cfg : Config) (l : List String) :
    mergeState cfg cfg emptyState (initState cfg l) false = initState cfg l := by
  have hkeys := initState_keys_nodup cfg l
  apply finderState_ext
  · refine (foldl_fresh_keys _ (fun (p : String × List Nat) => p.2) ?_ _ _ hkeys.1 ?_).trans ?_
    · intro d p h
      simp only [h]
      congr 1
      simp [emptyState]
    · intro p _
      rfl
    · simp [emptyState]
  · refine (foldl_fresh_keys _ (fun (p : String × Nat) => p.2) ?_ _ _ hkeys.2 ?_).trans ?_
    · intro f p h
      simp only [h]
      congr 1
      simp
    · intro p _
      rfl
    · simp [emptyState]
  · rw [mergeState_collection]
    simp [emptyState, initState_collection]
  · have hbody : (fun (m : List (String × Nat)) (p : Nat × String) =>
        mapSet m p.2 (emptyState.collection.length + p.1)) =
        fun m p => mapSet m p.2 p.1 := by
      funext m p
      rw [show emptyState.collection.length = 0 from rfl, Nat.zero_add]
    show (initState cfg l).collection.enum.foldl _ emptyState.index_map =
      (initState cfg l).index_map
    rw [initState_collection, initState_index_map, hbody]
    rfl
  · rw [initState_cache]
    rfl

/-! ## Characterising `sentence_matches` (for the search claims) -/

/-- Whether, in the given dictionary and match mode, the query token `tok`
makes sentence `idx` a match: partial mode takes every key containing the
token, otherwise a verbatim dictionary hit contributes exactly its own
indices, with keys starting with the token as the fallback. -/
def contributesB (dict : List (String × List Nat)) (pmode : Bool) (tok : String)
    (idx : Nat) : Bool :=
  if pmode then dict.any (fun p => strContainsSub p.1 tok && p.2.contains idx)
  else
    match mapGet dict tok with
    | some idxs => idxs.contains idx
    | none => dict.any (fun p => strStartsWith p.1 tok && p.2.contains idx)

theorem mem_setAdd (s : List String) (tok t : String) :
    t ∈ setAdd s tok ↔ t = tok ∨ t ∈ s := by
  unfold setAdd
  by_cases h : tok ∈ s
  · rw [if_pos h]
    constructor
    · exact Or.inr
    · rintro (rfl | ht)
      · exact h
      · exact ht
  · rw [if_neg h, List.mem_append, List.mem_singleton]
    exact or_comm

theorem nodup_setAdd (s : List String) (tok : String) (h : s.Nodup) :
    (setAdd s tok).Nodup := by
  unfold setAdd
  by_cases hm : tok ∈ s
  · simpa [hm]
  · simp [hm, List.nodup_append, h]

theorem setAdd_of_mem (s : List String) (tok : String) (h : tok ∈ s) :
    setAdd s tok = s := by
  unfold setAdd
  rw [if_pos h]

theorem setAdd_setAdd (s : List String) (tok : String) :
    setAdd (setAdd s tok) tok = setAdd s tok :=
  setAdd_of_mem _ _ ((mem_setAdd _ _ _).mpr (Or.inl rfl))

theorem mapGet_smAdd (sm : List (Nat × List String)) (idx : Nat) (tok : String) (j : Nat) :
    mapGet (smAdd sm idx tok) j =
      if j = idx then some (setAdd ((mapGet sm idx).getD []) tok) else mapGet sm j := by
  unfold smAdd
  cases hg : mapGet sm idx with
  | some s =>
    by_cases hj : j = idx
    · subst hj
      rw [if_pos rfl, mapGet_mapSet_self]
      rfl
    · rw [if_neg hj, mapGet_mapSet_ne _ _ _ _ hj]
  | none =>
    by_cases hj : j = idx
    · subst hj
      rw [if_pos rfl, mapGet_mapSet_self]
      rfl
    · rw [if_neg hj, mapGet_mapSet_ne _ _ _ _ hj]

theorem mapGet_addIdxs :
    ∀ (idxs : List Nat) (sm : List (Nat × List String)) (tok : String) (j : Nat),
      mapGet (addIdxs sm idxs tok) j =
        if j ∈ idxs then some (setAdd ((mapGet sm j).getD []) tok) else mapGet sm j
  | [], sm, tok, j => by simp [addIdxs]
  | i :: idxs, sm, tok, j => by
    show mapGet (addIdxs (smAdd sm i tok) idxs tok) j = _
    rw [mapGet_addIdxs idxs]
    by_cases hj : j ∈ idxs
    · rw [if_pos hj, if_pos (List.mem_cons_of_mem _ hj), mapGet_smAdd]
      by_cases hji : j = i
      · rw [if_pos hji, Option.getD_some, setAdd_setAdd]
        rw [hji]
      · rw [if_neg hji]
    · rw [if_neg hj, mapGet_smAdd]
      by_cases hji : j = i
      · rw [if_pos hji, if_pos (by rw [hji]; exact List.mem_cons_self i idxs), hji]
      · rw [if_neg hji, if_neg (by simp [hji, hj])]

theorem mapGet_foldl_pred (pred : String × List Nat → Bool) (tok : String) :
    ∀ (entries : List (String × List Nat)) (sm : List (Nat × List String)) (j : Nat),
      mapGet (entries.foldl (fun sm p => if pred p then addIdxs sm p.2 tok else sm) sm) j =
        if entries.any (fun p => pred p && p.2.contains j)
        then some (setAdd ((mapGet sm j).getD []) tok) else mapGet sm j
  | [], sm, j => by simp
  | p :: entries, sm, j => by
    rw [List.foldl_cons, mapGet_foldl_pred pred tok entries]
    have hsm' : mapGet (if pred p then addIdxs sm p.2 tok else sm) j =
        if pred p && p.2.contains j then some (setAdd ((mapGet sm j).getD []) tok)
        else mapGet sm j := by
      by_cases hp : pred p = true
      · rw [if_pos hp, mapGet_addIdxs]
        by_cases hjm : j ∈ p.2
        · rw [if_pos hjm, if_pos (by rw [hp, Bool.true_and]; exact List.elem_eq_true_of_mem hjm)]
        · rw [if_neg hjm, if_neg (by
            rw [hp, Bool.true_and]
            exact fun hc => hjm (List.mem_of_elem_eq_true hc))]
      · have hp' : pred p = false := by
          revert hp
          cases pred p <;> simp
        rw [if_neg hp, if_neg (by simp [hp'])]
    rw [hsm']
    cases hcb : (pred p && p.2.contains j) with
    | false =>
      simp only [List.any_cons, hcb, Bool.false_or, Bool.false_eq_true, if_false]
    | true =>
      simp only [List.any_cons, hcb, Bool.true_or, eq_self_iff_true, if_true,
        Option.getD_some, setAdd_setAdd, ite_self]

theorem mapGet_matchesForToken (dict : List (String × List Nat)) (pmode : Bool)
    (sm : List (Nat × List String)) (tok : String) (j : Nat) :
    mapGet (matchesForToken dict pmode sm tok) j =
      if contributesB dict pmode tok j = true
      then some (setAdd ((mapGet sm j).getD []) tok) else mapGet sm j := by
  unfold matchesForToken contributesB
  cases pmode with
  | true =>
    simp only [if_pos rfl]
    exact mapGet_foldl_pred (fun p => strContainsSub p.1 tok) tok dict sm j
  | false =>
    simp only [Bool.false_eq_true, if_false]
    cases hg : mapGet dict tok with
    | some idxs =>
      simp only [hg]
      rw [mapGet_addIdxs]
      by_cases hj : j ∈ idxs
      · rw [if_pos hj, if_pos (List.elem_eq_true_of_mem hj)]
      · rw [if_neg hj, if_neg (fun hc => hj (List.mem_of_elem_eq_true hc))]
    | none =>
      simp only [hg]
      exact mapGet_foldl_pred (fun p => strStartsWith p.1 tok) tok dict sm j

/-- The evolution of one sentence's token set across the query-token loop,
as an `Option` (absent entry = `none`). -/
def entryFold (dict : List (String × List Nat)) (pmode : Bool) (j : Nat)
    (ts : List String) (o : Option (List String)) : Option (List String) :=
  ts.foldl
    (fun o tok =>
      if contributesB dict pmode tok j = true then some (setAdd (o.getD []) tok) else o)
    o

theorem mapGet_tokens_foldl (dict : List (String × List Nat)) (pmode : Bool) :
    ∀ (ts : List String) (sm : List (Nat × List String)) (j : Nat),
      mapGet (ts.foldl (matchesForToken dict pmode) sm) j =
        entryFold dict pmode j ts (mapGet sm j)
  | [], _, _ => rfl
  | t :: ts, sm, j => by
    rw [List.foldl_cons, mapGet_tokens_foldl dict pmode ts]
    show entryFold dict pmode j ts (mapGet (matchesForToken dict pmode sm t) j) = _
    rw [mapGet_matchesForToken]
    rfl

theorem mapGet_buildMatches (dict : List (String × List Nat)) (pmode : Bool)
    (ts : List String) (j : Nat) :
    mapGet (buildMatches dict ts pmode) j = entryFold dict pmode j ts none :=
  mapGet_tokens_foldl dict pmode ts [] j

theorem entryFold_some_char (dict : List (String × List Nat)) (pmode : Bool) (j : Nat) :
    ∀ (ts : List String) (s : List String), s.Nodup →
      ∃ e, entryFold dict pmode j ts (some s) = some e ∧ e.Nodup ∧
        (∀ t, t ∈ e ↔ t ∈ s ∨ (t ∈ ts ∧ contributesB dict pmode t j = true))
  | [], s, hs => ⟨s, rfl, hs, by simp⟩
  | t0 :: ts, s, hs => by
    show ∃ e, entryFold dict pmode j ts
      (if contributesB dict pmode t0 j = true then some (setAdd ((some s).getD []) t0)
       else some s) = some e ∧ _
    by_cases hc : contributesB dict pmode t0 j = true
    · rw [if_pos hc]
      obtain ⟨e, he, hen, hch⟩ :=
        entryFold_some_char dict pmode j ts (setAdd s t0) (nodup_setAdd _ _ hs)
      refine ⟨e, he, hen, fun t => ?_⟩
      rw [hch t, mem_setAdd]
      constructor
      · rintro ((rfl | hts) | ⟨hts, hcc⟩)
        · exact Or.inr ⟨List.mem_cons_self _ _, hc⟩
        · exact Or.inl hts
        · exact Or.inr ⟨List.mem_cons_of_mem _ hts, hcc⟩
      · rintro (hts | ⟨hmem, hcc⟩)
        · exact Or.inl (Or.inr hts)
        · rcases List.mem_cons.mp hmem with rfl | hts
          · exact Or.inl (Or.inl rfl)
          · exact Or.inr ⟨hts, hcc⟩
    · rw [if_neg hc]
      obtain ⟨e, he, hen, hch⟩ := entryFold_some_char dict pmode j ts s hs
      refine ⟨e, he, hen, fun t => ?_⟩
      rw [hch t]
      constructor
      · rintro (hts | ⟨hts, hcc⟩)
        · exact Or.inl hts
        · exact Or.inr ⟨List.mem_cons_of_mem _ hts, hcc⟩
      · rintro (hts | ⟨hmem, hcc⟩)
        · exact Or.inl hts
        · rcases List.mem_cons.mp hmem with rfl | hts
          · exact absurd hcc hc
          · exact Or.inr ⟨hts, hcc⟩

theorem entryFold_none_char (dict : List (String × List Nat)) (pmode : Bool) (j : Nat) :
    ∀ ts : List String,
      (entryFold dict pmode j ts none = none ∧
        ∀ t ∈ ts, ¬(contributesB dict pmode t j = true)) ∨
      (∃ e, entryFold dict pmode j ts none = some e ∧ e.Nodup ∧ e ≠ [] ∧
        (∀ t, t ∈ e ↔ t ∈ ts ∧ contributesB dict pmode t j = true))
  | [] => Or.inl ⟨rfl, by simp⟩
  | t0 :: ts => by
    by_cases hc : contributesB dict pmode t0 j = true
    · right
      obtain ⟨e, he, hen, hch⟩ :=
        entryFold_some_char dict pmode j ts [t0] (List.nodup_singleton _)
      refine ⟨e, ?_, hen,
        List.ne_nil_of_mem ((hch t0).mpr (Or.inl (List.mem_singleton_self t0))), fun t => ?_⟩
      · show entryFold dict pmode j ts
          (if contributesB dict pmode t0 j = true
           then some (setAdd ((none : Option (List String)).getD []) t0) else none) = some e
        rw [if_pos hc]
        exact he
      · rw [hch t, List.mem_singleton]
        constructor
        · rintro (rfl | ⟨hts, hcc⟩)
          · exact ⟨List.mem_cons_self _ _, hc⟩
          · exact ⟨List.mem_cons_of_mem _ hts, hcc⟩
        · rintro ⟨hmem, hcc⟩
          rcases List.mem_cons.mp hmem with rfl | hts
          · exact Or.inl rfl
          · exact Or.inr ⟨hts, hcc⟩
    · rcases entryFold_none_char dict pmode j ts with ⟨hnone, hall⟩ | ⟨e, he, hen, hne, hch⟩
      · left
        refine ⟨?_, ?_⟩
        · show entryFold dict pmode j ts
            (if contributesB dict pmode t0 j = true
             then some (setAdd ((none : Option (List String)).getD []) t0) else none) = none
          rw [if_neg hc]
          exact hnone
        · intro t ht
          rcases List.mem_cons.mp ht with rfl | hts
          · exact hc
          · exact hall t hts
      · right
        refine ⟨e, ?_, hen, hne, fun t => ?_⟩
        · show entryFold dict pmode j ts
            (if contributesB dict pmode t0 j = true
             then some (setAdd ((none : Option (List String)).getD []) t0) else none) = some e
          rw [if_neg hc]
          exact he
        · rw [hch t]
          constructor
          · rintro ⟨hts, hcc⟩
            exact ⟨List.mem_cons_of_mem _ hts, hcc⟩
          · rintro ⟨hmem, hcc⟩
            rcases List.mem_cons.mp hmem with rfl | hts
            · exact absurd hcc hc
            · exact ⟨hts, hcc⟩

theorem mem_of_mapGet_eq_some {κ α : Type} [DecidableEq κ] :
    ∀ (m : List (κ × α)) (k : κ) (v : α), mapGet m k = some v → (k, v) ∈ m
  | [], k, v, h => by simp [mapGet] at h
  | p :: rest, k, v, h => by
    by_cases hp : p.1 = k
    · rw [show mapGet (p :: rest) k = some p.2 from by simp [mapGet, hp]] at h
      have hv : p.2 = v := Option.some.inj h
      have : p = (k, v) := Prod.ext hp hv
      rw [← this]
      exact List.mem_cons_self p rest
    · rw [show mapGet (p :: rest) k = mapGet rest k from by simp [mapGet, hp]] at h
      exact List.mem_cons_of_mem _ (mem_of_mapGet_eq_some rest k v h)

theorem mapGet_eq_some_of_mem_nodup {κ α : Type} [DecidableEq κ] :
    ∀ (m : List (κ × α)) (k : κ) (v : α),
      (mapKeys m).Nodup → (k, v) ∈ m → mapGet m k = some v
  | [], k, v, _, h => by simp at h
  | p :: rest, k, v, hnd, h => by
    rw [mapKeys_cons, List.nodup_cons] at hnd
    rcases List.mem_cons.mp h with rfl | hmem
    · simp [mapGet]
    · have hk : k ∈ mapKeys rest := List.mem_map_of_mem Prod.fst hmem
      have hp : ¬(p.1 = k) := fun he => hnd.1 (he ▸ hk)
      rw [show mapGet (p :: rest) k = mapGet rest k from by simp [mapGet, hp]]
      exact mapGet_eq_some_of_mem_nodup rest k v hnd.2 hmem

theorem smAdd_keys_nodup (sm : List (Nat × List String)) (idx : Nat) (tok : String)
    (h : (mapKeys sm).Nodup) : (mapKeys (smAdd sm idx tok)).Nodup := by
  unfold smAdd
  cases mapGet sm idx <;> exact nodup_mapKeys_mapSet _ _ _ h

theorem buildMatches_keys_nodup (dict : List (String × List Nat)) (ts : List String)
    (pmode : Bool) : (mapKeys (buildMatches dict ts pmode)).Nodup := by
  unfold buildMatches
  refine foldl_preserve (P := fun (sm : List (Nat × List String)) => (mapKeys sm).Nodup)
    _ ?_ _ _ List.nodup_nil
  intro sm tok h
  unfold matchesForToken
  have hstep : ∀ (pred : String × List Nat → Bool) (entries : List (String × List Nat))
      (sm : List (Nat × List String)), (mapKeys sm).Nodup →
      (mapKeys (entries.foldl
        (fun sm p => if pred p then addIdxs sm p.2 tok else sm) sm)).Nodup := by
    intro pred entries sm0 h0
    refine foldl_preserve (P := fun (sm : List (Nat × List String)) => (mapKeys sm).Nodup)
      _ ?_ _ _ h0
    intro sm1 p h1
    by_cases hp : pred p = true
    · rw [if_pos hp]
      refine foldl_preserve (P := fun (sm : List (Nat × List String)) => (mapKeys sm).Nodup)
        _ ?_ _ _ h1
      intro sm2 i h2
      exact smAdd_keys_nodup _ _ _ h2
    · rw [if_neg hp]
      exact h1
  cases pmode
  · simp only [Bool.false_eq_true, if_false]
    cases mapGet dict tok with
    | some idxs =>
      refine foldl_preserve (P := fun (sm : List (Nat × List String)) => (mapKeys sm).Nodup)
        _ ?_ _ _ h
      intro sm2 i h2
      exact smAdd_keys_nodup _ _ _ h2
    | none => exact hstep _ _ _ h
  · simp only [if_true]
    exact hstep _ _ _ h

/-- Pushing a property through a left fold, with membership of the element. -/
theorem foldl_preserve_mem {α β : Type} {P : α → Prop} (f : α → β → α) :
    ∀ (L : List β), (∀ a b, b ∈ L → P a → P (f a b)) → ∀ a, P a → P (L.foldl f a)
  | [], _, _, h => h
  | b :: L, hf, a, h =>
    foldl_preserve_mem f L (fun a' b' hb' => hf a' b' (List.mem_cons_of_mem _ hb'))
      (f a b) (hf a b (List.mem_cons_self b L) h)

theorem mem_mapSet {κ α : Type} [DecidableEq κ] :
    ∀ (m : List (κ × α)) (k : κ) (v : α) (q : κ × α),
      q ∈ mapSet m k v → q = (k, v) ∨ q ∈ m
  | [], k, v, q, h => by
    simp only [mapSet, List.mem_singleton] at h
    exact Or.inl h
  | p :: rest, k, v, q, h => by
    by_cases hp : p.1 = k
    · rw [show mapSet (p :: rest) k v = (k, v) :: rest from by simp [mapSet, hp]] at h
      rcases List.mem_cons.mp h with rfl | hm
      · exact Or.inl rfl
      · exact Or.inr (List.mem_cons_of_mem _ hm)
    · rw [show mapSet (p :: rest) k v = p :: mapSet rest k v from by simp [mapSet, hp]] at h
      rcases List.mem_cons.mp h with rfl | hm
      · exact Or.inr (List.mem_cons_self _ _)
      · rcases mem_mapSet rest k v q hm with h1 | h2
        · exact Or.inl h1
        · exact Or.inr (List.mem_cons_of_mem _ h2)

/-- Every index recorded in any dictionary entry of a freshly initialized
index is a valid position of the input list (the claimed data-model
invariant, for `init`-built states). -/
theorem initState_dict_in_range (cfg : Config) (l : List String) :
    ∀ pr ∈ (initState cfg l).dictionary, ∀ i ∈ pr.2, i < l.length := by
  unfold initState
  refine foldl_preserve_mem
    (P := fun (st : FinderState) => ∀ pr ∈ st.dictionary, ∀ i ∈ pr.2, i < l.length)
    _ _ ?_ _ (by simp)
  intro st p hp h
  have hlt : p.1 < l.length := List.fst_lt_of_mem_enum hp
  unfold addSentence
  refine foldl_preserve
    (P := fun (st : FinderState) => ∀ pr ∈ st.dictionary, ∀ i ∈ pr.2, i < l.length)
    _ ?_ _ _ h
  intro st' w h' pr hpr i hi
  simp only [addWord] at hpr
  rcases mem_mapSet _ _ _ _ hpr with heq | hmem
  · rw [heq] at hi
    rcases List.mem_append.mp hi with hiold | hinew
    · cases hg : mapGet st'.dictionary (normalize_word cfg.case_sensitive w) with
      | some o =>
        rw [hg, Option.getD_some] at hiold
        exact h' _ (mem_of_mapGet_eq_some _ _ _ hg) i hiold
      | none =>
        rw [hg] at hiold
        simp at hiold
    · rw [List.mem_singleton] at hinew
      rw [hinew]
      exact hlt
  · exact h' pr hmem i hi

/-- A token contributing a sentence index in an `init`-built dictionary only
ever names a valid collection position. -/
theorem contributes_in_range (cfg : Config) (l : List String) (pmode : Bool)
    (tok : String) (j : Nat)
    (hc : contributesB (initState cfg l).dictionary pmode tok j = true) : j < l.length := by
  unfold contributesB at hc
  cases pmode with
  | true =>
    simp only [if_pos rfl] at hc
    obtain ⟨p, hpmem, hpc⟩ := List.any_eq_true.mp hc
    have hj : j ∈ p.2 := List.mem_of_elem_eq_true ((Bool.and_eq_true _ _ ▸ hpc).2)
    exact initState_dict_in_range cfg l p hpmem j hj
  | false =>
    simp only [Bool.false_eq_true, if_false] at hc
    cases hg : mapGet (initState cfg l).dictionary tok with
    | some idxs =>
      rw [hg] at hc
      exact initState_dict_in_range cfg l (tok, idxs)
        (mem_of_mapGet_eq_some _ _ _ hg) j (List.mem_of_elem_eq_true hc)
    | none =>
      rw [hg] at hc
      obtain ⟨p, hpmem, hpc⟩ := List.any_eq_true.mp hc
      have hj : j ∈ p.2 := List.mem_of_elem_eq_true ((Bool.and_eq_true _ _ ▸ hpc).2)
      exact initState_dict_in_range cfg l p hpmem j hj

theorem length_eq_of_nodup_mem_iff {l1 l2 : List String} (h1 : l1.Nodup) (h2 : l2.Nodup)
    (h : ∀ t, t ∈ l1 ↔ t ∈ l2) : l1.length = l2.length := by
  rw [← List.toFinset_card_of_nodup h1, ← List.toFinset_card_of_nodup h2]
  congr 1
  ext t
  rw [List.mem_toFinset, List.mem_toFinset]
  exact h t

theorem getD_eq_of_get?_eq_some (l : List String) (i : Nat) (s : String)
    (h : l.get? i = some s) : l.getD i "" = s := by
  rw [List.getD_eq_getElem?_getD, ← List.get?_eq_getElem?, h]
  rfl

theorem get?_eq_some_getD (l : List String) (i : Nat) (h : i < l.length) :
    l.get? i = some (l.getD i "") := by
  rw [List.getD_eq_getElem?_getD, ← List.get?_eq_getElem?, List.get?_eq_get h]
  rfl

/-- Membership characterisation of the unranked (filter + map) result list of
a non-partial search over an `init`-built index. -/
theorem c4_core (cfg : Config) (l : List String) (ts : List String) (mm : Nat)
    (hmin : 1 ≤ mm) (s : String) :
    s ∈ ((buildMatches (initState cfg l).dictionary ts false).filter
          (fun p => mm ≤ p.2.length)).map
        (fun p => (initState cfg l).collection.getD p.1 "") ↔
      ∃ idx, l.get? idx = some s ∧
        mm ≤ ((ts.filter
          (fun t => contributesB (initState cfg l).dictionary false t idx)).dedup).length := by
  rw [List.mem_map]
  constructor
  · rintro ⟨p, hpf, heq⟩
    rw [List.mem_filter] at hpf
    obtain ⟨hpmem, hplen⟩ := hpf
    simp only [decide_eq_true_eq] at hplen
    have hget : mapGet (buildMatches (initState cfg l).dictionary ts false) p.1 = some p.2 :=
      mapGet_eq_some_of_mem_nodup _ _ _ (buildMatches_keys_nodup _ _ _) hpmem
    rw [mapGet_buildMatches] at hget
    rcases entryFold_none_char _ _ p.1 ts with ⟨hnone, _⟩ | ⟨e, he, hen, _, hch⟩
    · rw [hnone] at hget
      exact absurd hget (by simp)
    · rw [he] at hget
      obtain rfl : e = p.2 := Option.some.inj hget
      have hlen : p.2.length = ((ts.filter
          (fun t => contributesB (initState cfg l).dictionary false t p.1)).dedup).length := by
        apply length_eq_of_nodup_mem_iff hen (List.nodup_dedup _)
        intro t
        rw [hch t, List.mem_dedup, List.mem_filter]
      have hne : p.2 ≠ [] := by
        intro h0
        rw [h0] at hplen
        simp at hplen
        omega
      obtain ⟨t0, ht0⟩ := List.exists_mem_of_ne_nil _ hne
      have hc0 := ((hch t0).mp ht0).2
      have hrange : p.1 < l.length := contributes_in_range cfg l false t0 p.1 hc0
      refine ⟨p.1, ?_, ?_⟩
      · rw [← heq, initState_collection]
        exact get?_eq_some_getD l p.1 hrange
      · rw [← hlen]
        exact hplen
  · rintro ⟨idx, hq, hcount⟩
    rcases entryFold_none_char (initState cfg l).dictionary false idx ts with
      ⟨hnone, hall⟩ | ⟨e, he, hen, _, hch⟩
    · have hfe : (ts.filter
          (fun t => contributesB (initState cfg l).dictionary false t idx)) = [] :=
        List.filter_eq_nil_iff.mpr (fun t ht => by simpa using hall t ht)
      rw [hfe] at hcount
      simp at hcount
      omega
    · have hlen : e.length = ((ts.filter
          (fun t => contributesB (initState cfg l).dictionary false t idx)).dedup).length := by
        apply length_eq_of_nodup_mem_iff hen (List.nodup_dedup _)
        intro t
        rw [hch t, List.mem_dedup, List.mem_filter]
      refine ⟨(idx, e), ?_, ?_⟩
      · rw [List.mem_filter]
        refine ⟨mem_of_mapGet_eq_some _ _ _ (by rw [mapGet_buildMatches]; exact he), ?_⟩
        simp only [decide_eq_true_eq]
        rw [hlen]
        exact hcount
      · rw [initState_collection]
        exact getD_eq_of_get?_eq_some l idx s hq

/-- Claim C4: for an initialized index, a non-whitespace query, and
`partial = false`, a query token with a verbatim dictionary hit contributes
exactly that key's sentence indices, and otherwise every key starting with
the token contributes its indices (this is `contributesB`); the returned
results are exactly the sentences whose number of distinct matched query
tokens reaches `min_match_count` (the per-call option if given, else the
configured one, here assumed ≥ 1 as the interface requires). -/
theorem c4_search_exact_membership (cfg : Config) (l : List String) (q : String)
    (opts : SearchOpts) (hpm : opts.pmode = false) (hblank : isBlank q = false)
    (hmin : 1 ≤ opts.min_match_opt.getD cfg.min_match_count) (s : String) :
    s ∈ (searchFull cfg (initState cfg l) q opts).results ↔
      ∃ idx, l.get? idx = some s ∧
        opts.min_match_opt.getD cfg.min_match_count ≤
          ((((cfg.tokenizer q).map (normalize_word cfg.case_sensitive)).filter
              (fun t => contributesB (initState cfg l).dictionary false t idx)).dedup).length := by
  simp only [searchFull, hblank, Bool.false_eq_true, if_false]
  by_cases h0 : ((cfg.tokenizer q).map (normalize_word cfg.case_sensitive)).length = 0
  · rw [if_pos h0]
    rw [List.length_eq_zero] at h0
    rw [h0]
    simp only [List.filter_nil, List.dedup_nil, List.length_nil, List.not_mem_nil,
      false_iff, not_exists, not_and]
    intro idx _
    omega
  · rw [if_neg h0, hpm]
    by_cases hr : opts.ranked = true
    · rw [if_pos hr]
      rw [(List.mergeSort_perm _ _).mem_iff]
      exact c4_core cfg l _ _ hmin s
    · rw [if_neg hr]
      exact c4_core cfg l _ _ hmin s

theorem c4_search_exact_membership_witness :
    "quick fox" ∈ (searchFull defaultConfig (initState defaultConfig ["quick fox", "slow dog"])
      "fox" { ranked := false, min_match_opt := none, pmode := false }).results :=
  (c4_search_exact_membership defaultConfig ["quick fox", "slow dog"] "fox"
      { ranked := false, min_match_opt := none, pmode := false } rfl (by decide) (by decide)
      "quick fox").mpr ⟨0, by decide, by decide⟩

/-! ## The lexicographic string order backing `sort()` and the binary search -/

theorem ult_irrefl (x : UInt32) : ¬x < x := fun h => Nat.lt_irrefl x.toNat h

theorem ult_trans {x y z : UInt32} (h1 : x < y) (h2 : y < z) : x < z :=
  Nat.lt_trans h1 h2

theorem ult_asymm {x y : UInt32} (h1 : x < y) : ¬y < x :=
  fun h2 => Nat.lt_irrefl _ (Nat.lt_trans h1 h2)

theorem charval_tri (a b : Char) : a.val < b.val ∨ b.val < a.val ∨ a = b := by
  rcases Nat.lt_trichotomy a.val.toNat b.val.toNat with h | h | h
  · exact Or.inl h
  · exact Or.inr (Or.inr (Char.ext (UInt32.toNat.inj h)))
  · exact Or.inr (Or.inl h)

theorem lexLt_cons_cons (x y : Char) (as bs : List Char) :
    lexLt (x :: as) (y :: bs) =
      if x.val < y.val then true else if y.val < x.val then false else lexLt as bs := rfl

theorem lexLt_asymm : ∀ a b : List Char, lexLt a b = true → lexLt b a = false := by
  intro a
  induction a with
  | nil =>
    intro b h
    cases b with
    | nil => exact absurd h (by simp [lexLt])
    | cons y bs => rfl
  | cons x as ih =>
    intro b h
    cases b with
    | nil => exact absurd h (by simp [lexLt])
    | cons y bs =>
      rw [lexLt_cons_cons] at h
      rw [lexLt_cons_cons]
      by_cases hxy : x.val < y.val
      · rw [if_neg (ult_asymm hxy), if_pos hxy]
      · rw [if_neg hxy] at h
        by_cases hyx : y.val < x.val
        · rw [if_pos hyx] at h
          exact absurd h (by simp)
        · rw [if_neg hyx] at h
          rw [if_neg hyx, if_neg hxy]
          exact ih bs h

theorem lexLt_tri : ∀ a b : List Char, lexLt a b = true ∨ lexLt b a = true ∨ a = b := by
  intro a
  induction a with
  | nil =>
    intro b
    cases b with
    | nil => exact Or.inr (Or.inr rfl)
    | cons y bs => exact Or.inl rfl
  | cons x as ih =>
    intro b
    cases b with
    | nil => exact Or.inr (Or.inl rfl)
    | cons y bs =>
      rcases charval_tri x y with h | h | h
      · left
        rw [lexLt_cons_cons, if_pos h]
      · right
        left
        rw [lexLt_cons_cons, if_pos h]
      · subst h
        rcases ih bs with h1 | h1 | h1
        · left
          rw [lexLt_cons_cons, if_neg (ult_irrefl _), if_neg (ult_irrefl _)]
          exact h1
        · right
          left
          rw [lexLt_cons_cons, if_neg (ult_irrefl _), if_neg (ult_irrefl _)]
          exact h1
        · right
          right
          rw [h1]

theorem lexLt_trans : ∀ a b c : List Char,
    lexLt a b = true → lexLt b c = true → lexLt a c = true := by
  intro a
  induction a with
  | nil =>
    intro b c h1 h2
    cases b with
    | nil => exact absurd h1 (by simp [lexLt])
    | cons y bs =>
      cases c with
      | nil => exact absurd h2 (by simp [lexLt])
      | cons z cs => rfl
  | cons x as ih =>
    intro b c h1 h2
    cases b with
    | nil => exact absurd h1 (by simp [lexLt])
    | cons y bs =>
      cases c with
      | nil => exact absurd h2 (by simp [lexLt])
      | cons z cs =>
        rw [lexLt_cons_cons] at h1 h2
        rw [lexLt_cons_cons]
        by_cases hxy : x.val < y.val
        · by_cases hyz : y.val < z.val
          · rw [if_pos (ult_trans hxy hyz)]
          · rw [if_neg hyz] at h2
            by_cases hzy : z.val < y.val
            · rw [if_pos hzy] at h2
              exact absurd h2 (by simp)
            · have hyez : y = z := by
                rcases charval_tri y z with h | h | h
                · exact absurd h hyz
                · exact absurd h hzy
                · exact h
              subst hyez
              rw [if_pos hxy]
        · rw [if_neg hxy] at h1
          by_cases hyx : y.val < x.val
          · rw [if_pos hyx] at h1
            exact absurd h1 (by simp)
          · rw [if_neg hyx] at h1
            have hxey : x = y := by
              rcases charval_tri x y with h | h | h
              · exact absurd h hxy
              · exact absurd h hyx
              · exact h
            subst hxey
            by_cases hxz : x.val < z.val
            · rw [if_pos hxz]
            · rw [if_neg hxz] at h2 ⊢
              by_cases hzx : z.val < x.val
              · rw [if_pos hzx] at h2
                exact absurd h2 (by simp)
              · rw [if_neg hzx] at h2 ⊢
                exact ih bs cs h1 h2

theorem lexLt_of_not_lt_of_lt (x y z : List Char) (hxy : lexLt x y = false)
    (hxz : lexLt x z = true) : lexLt y z = true := by
  rcases lexLt_tri y z with h | h | h
  · exact h
  · exact absurd (lexLt_trans x z y hxz h) (by rw [hxy]; simp)
  · subst h
    exact absurd hxz (by rw [hxy]; simp)

theorem not_lexLt_of_isPrefixOf : ∀ p w : List Char,
    p.isPrefixOf w = true → lexLt w p = false := by
  intro p
  induction p with
  | nil =>
    intro w _
    cases w with
    | nil => rfl
    | cons c ws => rfl
  | cons c p ih =>
    intro w h
    cases w with
    | nil => simp [List.isPrefixOf] at h
    | cons d ws =>
      simp only [List.isPrefixOf, Bool.and_eq_true, beq_iff_eq] at h
      obtain ⟨rfl, hrest⟩ := h
      rw [lexLt_cons_cons, if_neg (ult_irrefl _), if_neg (ult_irrefl _)]
      exact ih ws hrest

/-- In lexicographic order, the keys with a given prefix form a contiguous
block: anything between two of them (or between the prefix and one of them)
also has the prefix. -/
theorem isPrefixOf_of_between : ∀ p a b : List Char, lexLt a p = false →
    lexLt b a = false → p.isPrefixOf b = true → p.isPrefixOf a = true := by
  intro p
  induction p with
  | nil =>
    intro a b _ _ _
    cases a <;> rfl
  | cons x ps ih =>
    intro a b hpa hba hpb
    cases a with
    | nil => simp [lexLt] at hpa
    | cons y as =>
      cases b with
      | nil => simp [List.isPrefixOf] at hpb
      | cons z bs =>
        simp only [List.isPrefixOf, Bool.and_eq_true, beq_iff_eq] at hpb
        obtain ⟨rfl, hps⟩ := hpb
        rw [lexLt_cons_cons] at hpa hba
        by_cases hyx : y.val < x.val
        · rw [if_pos hyx] at hpa
          exact absurd hpa (by simp)
        · rw [if_neg hyx] at hpa
          by_cases hxy : x.val < y.val
          · rw [if_pos hxy] at hba
            exact absurd hba (by simp)
          · rw [if_neg hxy] at hpa
            rw [if_neg hxy, if_neg hyx] at hba
            have hxey : x = y := by
              rcases charval_tri x y with h | h | h
              · exact absurd h hxy
              · exact absurd h hyx
              · exact h
            subst hxey
            simp only [List.isPrefixOf, beq_self_eq_true, Bool.true_and]
            exact ih as bs hpa hba hps

theorem strLt_of_not_lt_of_lt (x y z : String) (hxy : strLtB x y = false)
    (hxz : strLtB x z = true) : strLtB y z = true :=
  lexLt_of_not_lt_of_lt x.data y.data z.data hxy hxz

theorem keyLE_trans (a b c : String) (h1 : (!strLtB b a) = true)
    (h2 : (!strLtB c b) = true) : (!strLtB c a) = true := by
  rw [Bool.not_eq_true'] at h1 h2 ⊢
  have h1' : lexLt b.data a.data = false := h1
  have h2' : lexLt c.data b.data = false := h2
  show lexLt c.data a.data = false
  cases hca : lexLt c.data a.data with
  | false => rfl
  | true =>
    rcases lexLt_tri a.data b.data with h | h | h
    · have hcb := lexLt_trans c.data a.data b.data hca h
      rw [hcb] at h2'
      exact absurd h2' (by simp)
    · rw [h] at h1'
      exact absurd h1' (by simp)
    · rw [h] at hca
      rw [hca] at h2'
      exact absurd h2' (by simp)

theorem keyLE_total (a b : String) : ((!strLtB b a) || (!strLtB a b)) = true := by
  cases h1 : strLtB b a with
  | false => rfl
  | true =>
    have := lexLt_asymm b.data a.data h1
    rw [Bool.or_eq_true, Bool.not_eq_true', Bool.not_eq_true']
    exact Or.inr this

theorem sortKeys_sorted (dict : List (String × List Nat)) :
    List.Pairwise (fun a b => (!strLtB b a) = true) (sortKeys dict) :=
  List.sorted_mergeSort (fun a b c => keyLE_trans a b c) (fun a b => keyLE_total a b) _

theorem sortKeys_perm (dict : List (String × List Nat)) :
    (sortKeys dict).Perm (mapKeys dict) :=
  List.mergeSort_perm _ _

theorem getD_get (l : List String) (i : Nat) (h : i < l.length) :
    l.getD i "" = l.get ⟨i, h⟩ := by
  rw [List.getD_eq_getElem?_getD, List.getElem?_eq_getElem h]
  rfl

theorem sorted_getD_not_lt (ws : List String)
    (hs : List.Pairwise (fun a b => (!strLtB b a) = true) ws) (i j : Nat) (hij : i < j)
    (hj : j < ws.length) : strLtB (ws.getD j "") (ws.getD i "") = false := by
  have hi : i < ws.length := Nat.lt_trans hij hj
  rw [getD_get ws i hi, getD_get ws j hj]
  have := List.pairwise_iff_get.mp hs ⟨i, hi⟩ ⟨j, hj⟩ hij
  rw [Bool.not_eq_true'] at this
  exact this

/-- Correctness of the `while (start < end)` lower-bound loop of `suggest`:
on a sorted array, starting from a window whose outside is already decided,
the result index splits the array into the keys `< p` and the keys `≥ p`. -/
theorem lowerBound_spec (ws : List String) (p : String)
    (hsort : List.Pairwise (fun a b => (!strLtB b a) = true) ws) :
    ∀ (n start stop : Nat), stop - start ≤ n → start ≤ stop → stop ≤ ws.length →
      (∀ i, i < start → i < ws.length → strLtB (ws.getD i "") p = true) →
      (∀ i, stop ≤ i → i < ws.length → strLtB (ws.getD i "") p = false) →
      (∀ i, i < lowerBound ws p start stop → i < ws.length →
        strLtB (ws.getD i "") p = true) ∧
      (∀ i, lowerBound ws p start stop ≤ i → i < ws.length →
        strLtB (ws.getD i "") p = false) ∧
      lowerBound ws p start stop ≤ ws.length := by
  intro n
  induction n with
  | zero =>
    intro start stop hn h1 h2 hlo hhi
    have hss : start = stop := by omega
    subst hss
    rw [show lowerBound ws p start start = start from by
      rw [lowerBound]
      rw [dif_neg (by omega)]]
    exact ⟨fun i hi hil => hlo i hi hil, fun i hi hil => hhi i hi hil, by omega⟩
  | succ n ih =>
    intro start stop hn h1 h2 hlo hhi
    by_cases h : start < stop
    · have hmid1 : start ≤ (start + stop) / 2 := by omega
      have hmid2 : (start + stop) / 2 < stop := by omega
      have hmidl : (start + stop) / 2 < ws.length := by omega
      rw [show lowerBound ws p start stop =
          (if strLtB (ws.getD ((start + stop) / 2) "") p
           then lowerBound ws p ((start + stop) / 2 + 1) stop
           else lowerBound ws p start ((start + stop) / 2)) from by
        rw [lowerBound]
        rw [dif_pos h]]
      cases hcmp : strLtB (ws.getD ((start + stop) / 2) "") p with
      | true =>
        rw [if_pos rfl]
        refine ih ((start + stop) / 2 + 1) stop (by omega) (by omega) h2 ?_ hhi
        intro i hi hil
        by_cases his : i < start
        · exact hlo i his hil
        · by_cases hieq : i = (start + stop) / 2
          · rw [hieq]
            exact hcmp
          · have hilt : i < (start + stop) / 2 := by omega
            exact strLt_of_not_lt_of_lt _ _ _
              (sorted_getD_not_lt ws hsort i ((start + stop) / 2) hilt hmidl) hcmp
      | false =>
        rw [if_neg (by simp)]
        refine ih start ((start + stop) / 2) (by omega) (by omega) (by omega) hlo ?_
        intro i hi hil
        by_cases hieq : i = (start + stop) / 2
        · rw [hieq]
          exact hcmp
        · have hgt : (start + stop) / 2 < i := by omega
          cases hci : strLtB (ws.getD i "") p with
          | false => rfl
          | true =>
            have := strLt_of_not_lt_of_lt _ _ _
              (sorted_getD_not_lt ws hsort ((start + stop) / 2) i hgt hil) hci
            rw [this] at hcmp
            exact absurd hcmp (by simp)
    · have hss : start = stop := by omega
      subst hss
      rw [show lowerBound ws p start start = start from by
        rw [lowerBound]
        rw [dif_neg (by omega)]]
      exact ⟨fun i hi hil => hlo i hi hil, fun i hi hil => hhi i hi hil, by omega⟩

/-- On a sorted tail all of whose elements are `≥ p`, `takeWhile startsWith`
collects exactly the members with the prefix (contiguity of the prefix
block). -/
theorem takeWhile_char (p : String) : ∀ (l : List String),
    List.Pairwise (fun a b => (!strLtB b a) = true) l →
    (∀ x ∈ l, strLtB x p = false) →
    ∀ w, (w ∈ l.takeWhile (fun w => strStartsWith w p) ↔
      w ∈ l ∧ strStartsWith w p = true)
  | [], _, _, w => by simp
  | x :: l, hp, hge, w => by
    rw [List.pairwise_cons] at hp
    by_cases hx : strStartsWith x p = true
    · rw [List.takeWhile_cons, if_pos hx]
      simp only [List.mem_cons]
      rw [takeWhile_char p l hp.2 (fun y hy => hge y (List.mem_cons_of_mem _ hy)) w]
      constructor
      · rintro (rfl | ⟨hm, hpw⟩)
        · exact ⟨Or.inl rfl, hx⟩
        · exact ⟨Or.inr hm, hpw⟩
      · rintro ⟨rfl | hm, hpw⟩
        · exact Or.inl rfl
        · exact Or.inr ⟨hm, hpw⟩
    · rw [List.takeWhile_cons, if_neg hx]
      simp only [List.not_mem_nil, false_iff]
      rintro ⟨hm, hpw⟩
      rcases List.mem_cons.mp hm with rfl | hm
      · exact hx hpw
      · have hle : strLtB w x = false := by
          have := hp.1 w hm
          rw [Bool.not_eq_true'] at this
          exact this
        exact hx (isPrefixOf_of_between p.data x.data w.data (hge x (List.mem_cons_self _ _))
          hle hpw)

/-- Claim C6: a blank prefix yields no suggestions; otherwise the suggestions
are exactly the dictionary keys starting with the case-normalized prefix,
located through the lower-bound binary search on the (lazily rebuilt) sorted
key cache.  The cache hypothesis covers every reachable state: the cache is
either absent or the previously materialised sorted key array. -/
theorem c6_suggest_prefix_set (cfg : Config) (st : FinderState)
    (hcache : st.sorted_dictionary_cache = none ∨
      st.sorted_dictionary_cache = some (sortKeys st.dictionary)) (px : String) :
    (isBlank px = true → (suggestFull cfg st px).1 = []) ∧
    (isBlank px = false → ∀ w, (w ∈ (suggestFull cfg st px).1 ↔
      w ∈ mapKeys st.dictionary ∧
        strStartsWith w (normalize_word cfg.case_sensitive px) = true)) := by
  constructor
  · intro h
    simp [suggestFull, h]
  · intro h w
    have hsw : st.sorted_dictionary_cache.getD (sortKeys st.dictionary) =
        sortKeys st.dictionary := by
      rcases hcache with hc | hc <;> simp [hc]
    simp only [suggestFull, h, Bool.false_eq_true, if_false, hsw]
    have hsort := sortKeys_sorted st.dictionary
    have hperm : ∀ x, x ∈ sortKeys st.dictionary ↔ x ∈ mapKeys st.dictionary :=
      fun x => (sortKeys_perm st.dictionary).mem_iff
    obtain ⟨hlt, hge, hrs⟩ :=
      lowerBound_spec (sortKeys st.dictionary) (normalize_word cfg.case_sensitive px) hsort
        (sortKeys st.dictionary).length 0 (sortKeys st.dictionary).length (by omega)
        (by omega) (le_refl _) (fun i hi _ => absurd hi (by omega))
        (fun i h1 h2 => absurd h2 (by omega))
    have hdropSorted : List.Pairwise (fun a b => (!strLtB b a) = true)
        ((sortKeys st.dictionary).drop
          (lowerBound (sortKeys st.dictionary) (normalize_word cfg.case_sensitive px) 0
            (sortKeys st.dictionary).length)) :=
      hsort.sublist (List.drop_sublist _ _)
    have hdropGe : ∀ x ∈ (sortKeys st.dictionary).drop
        (lowerBound (sortKeys st.dictionary) (normalize_word cfg.case_sensitive px) 0
          (sortKeys st.dictionary).length),
        strLtB x (normalize_word cfg.case_sensitive px) = false := by
      intro x hx
      obtain ⟨⟨k, hkl⟩, hget⟩ := List.mem_iff_get.mp hx
      rw [List.length_drop] at hkl
      have hbound : lowerBound (sortKeys st.dictionary)
          (normalize_word cfg.case_sensitive px) 0 (sortKeys st.dictionary).length + k <
          (sortKeys st.dictionary).length := by omega
      rw [← List.get_drop (h := hbound)] at hget
      rw [← hget]
      rw [← getD_get _ _ hbound]
      exact hge _ (by omega) hbound
    rw [takeWhile_char (normalize_word cfg.case_sensitive px) _ hdropSorted hdropGe w]
    constructor
    · rintro ⟨hmem, hpw⟩
      exact ⟨(hperm w).mp (List.drop_subset _ _ hmem), hpw⟩
    · rintro ⟨hmem, hpw⟩
      refine ⟨?_, hpw⟩
      have hw : w ∈ sortKeys st.dictionary := (hperm w).mpr hmem
      obtain ⟨⟨j, hjl⟩, hget⟩ := List.mem_iff_get.mp hw
      have hjr : lowerBound (sortKeys st.dictionary)
          (normalize_word cfg.case_sensitive px) 0 (sortKeys st.dictionary).length ≤ j := by
        by_contra hjr
        push_neg at hjr
        have hj := hlt j hjr hjl
        rw [getD_get _ _ hjl, hget] at hj
        have hnl : strLtB w (normalize_word cfg.case_sensitive px) = false :=
          not_lexLt_of_isPrefixOf _ _ hpw
        rw [hj] at hnl
        exact absurd hnl (by simp)
      have hjd : j - (lowerBound (sortKeys st.dictionary)
          (normalize_word cfg.case_sensitive px) 0 (sortKeys st.dictionary).length) <
          ((sortKeys st.dictionary).drop
            (lowerBound (sortKeys st.dictionary) (normalize_word cfg.case_sensitive px) 0
              (sortKeys st.dictionary).length)).length := by
        rw [List.length_drop]
        omega
      have hweq : w = ((sortKeys st.dictionary).drop
          (lowerBound (sortKeys st.dictionary) (normalize_word cfg.case_sensitive px) 0
            (sortKeys st.dictionary).length)).get ⟨_, hjd⟩ := by
        rw [← List.get_drop (h := by rw [List.length_drop] at hjd; omega)]
        rw [← hget]
        refine congrArg _ (Fin.ext ?_)
        show j = lowerBound (sortKeys st.dictionary)
            (normalize_word cfg.case_sensitive px) 0 (sortKeys st.dictionary).length +
          (j - lowerBound (sortKeys st.dictionary)
            (normalize_word cfg.case_sensitive px) 0 (sortKeys st.dictionary).length)
        omega
      rw [hweq]
      exact List.get_mem _ _ _

theorem c6_suggest_prefix_set_witness :
    "quick" ∈ (suggestFull defaultConfig
        (initState defaultConfig ["quick", "quicker", "quit"]) "qui").1 ↔
      "quick" ∈ mapKeys (initState defaultConfig ["quick", "quicker", "quit"]).dictionary ∧
        strStartsWith "quick" (normalize_word defaultConfig.case_sensitive "qui") = true :=
  (c6_suggest_prefix_set defaultConfig (initState defaultConfig ["quick", "quicker", "quit"])
    (Or.inl (initState_cache defaultConfig ["quick", "quicker", "quit"])) "qui").2
    (by decide) "quick"

/-! ## Ranked search: occurrence counts, score and earliest-match maps -/

/-- Number of iterations of the occurrence-scanning `while` loop: the count
of greedy non-overlapping occurrences of `tok` in `st_` from `pos` on. -/
def occIters (st_ tok : List Char) : Nat → Nat → Nat
  | 0, _ => 0
  | fuel + 1, pos =>
    match listIndexOfFrom st_ tok pos with
    | none => 0
    | some found => occIters st_ tok fuel (found + tok.length) + 1

/-- The occurrences of a query token inside one sentence token, as the
ranking loop counts them. -/
def occurrences (s tok : String) : Nat := occIters s.data tok.data (s.data.length + 1) 0

theorem occLoop_eq_iters_mul_weight (st_ tok : List Char) :
    ∀ (fuel pos acc : Nat),
      occLoop st_ tok fuel pos acc = acc + occIters st_ tok fuel pos * weight st_ tok
  | 0, _, acc => by simp [occLoop, occIters]
  | fuel + 1, pos, acc => by
    show (match listIndexOfFrom st_ tok pos with
      | none => acc
      | some found => occLoop st_ tok fuel (found + tok.length) (acc + weight st_ tok)) = _
    cases hfind : listIndexOfFrom st_ tok pos with
    | none => simp [occIters, hfind]
    | some found =>
      show occLoop st_ tok fuel (found + tok.length) (acc + weight st_ tok) = _
      rw [occLoop_eq_iters_mul_weight st_ tok fuel]
      rw [show occIters st_ tok (fuel + 1) pos =
        occIters st_ tok fuel (found + tok.length) + 1 from by rw [occIters, hfind]]
      ring

/-- Each sentence token's `localOcc` is its occurrence count times the
exact/starts-with/substring weight — the "10/2/1 per occurrence" rule. -/
theorem localOcc_eq (s tok : String) :
    localOcc s.data tok.data = occurrences s tok * weight s.data tok.data := by
  unfold localOcc occurrences
  rw [occLoop_eq_iters_mul_weight]
  simp

/-- The positions (within a sentence's token sequence) at which one query
token matches. -/
def matchedPos (sentTokens : List String) (tok : String) : List Nat :=
  (sentTokens.enum.filter (fun p => 0 < localOcc p.2.data tok.data)).map Prod.fst

theorem scanSentence_gen (tok : String) :
    ∀ (L : List (Nat × String)) (acc : Nat × Option Nat),
      L.foldl (fun acc p =>
        let lo := localOcc p.2.data tok.data
        if 0 < lo then (acc.1 + lo, minO acc.2 p.1) else acc) acc =
      (acc.1 + (L.map (fun p => localOcc p.2.data tok.data)).sum,
        ((L.filter (fun p => 0 < localOcc p.2.data tok.data)).map Prod.fst).foldl minO acc.2)
  | [], acc => by simp
  | p :: L, acc => by
    rw [List.foldl_cons, scanSentence_gen tok L]
    by_cases hlo : 0 < localOcc p.2.data tok.data
    · rw [if_pos hlo]
      rw [show (p :: L).filter (fun p => decide (0 < localOcc p.2.data tok.data)) =
          p :: L.filter (fun p => decide (0 < localOcc p.2.data tok.data)) from by
        rw [List.filter_cons_of_pos]
        simpa using hlo]
      simp only [List.map_cons, List.foldl_cons, List.map, List.sum_cons]
      refine congrArg₂ Prod.mk ?_ rfl
      omega
    · rw [if_neg hlo]
      have hz : localOcc p.2.data tok.data = 0 := by omega
      rw [show (p :: L).filter (fun p => decide (0 < localOcc p.2.data tok.data)) =
          L.filter (fun p => decide (0 < localOcc p.2.data tok.data)) from by
        rw [List.filter_cons_of_neg]
        simpa using hlo]
      simp only [List.map_cons, List.sum_cons, hz]
      refine congrArg₂ Prod.mk ?_ rfl
      omega

theorem scanSentence_eq (sentTokens : List String) (tok : String) (e0 : Option Nat) :
    scanSentence sentTokens tok e0 =
      ((sentTokens.map (fun s => localOcc s.data tok.data)).sum,
        (matchedPos sentTokens tok).foldl minO e0) := by
  unfold scanSentence matchedPos
  rw [scanSentence_gen]
  refine congrArg₂ Prod.mk ?_ rfl
  rw [show sentTokens.enum.map (fun p => localOcc p.2.data tok.data) =
      (sentTokens.enum.map Prod.snd).map (fun s => localOcc s.data tok.data) from by
    rw [List.map_map]
    rfl]
  rw [List.enum_map_snd]
  omega

theorem foldl_minO_some (e : Nat) :
    ∀ (L : List Nat), L.foldl minO (some e) = some (L.foldl min e)
  | [] => rfl
  | x :: L => by
    rw [List.foldl_cons, List.foldl_cons]
    exact foldl_minO_some (min e x) L

theorem foldl_minO_none_eq_min? :
    ∀ (L : List Nat), L.foldl minO none = L.min?
  | [] => rfl
  | x :: L => by
    rw [List.foldl_cons]
    show L.foldl minO (some x) = (x :: L).min?
    rw [foldl_minO_some, List.min?_cons']

theorem mapGet_foldl_mapSet_init {β : Type} (v : β) :
    ∀ (sm : List (Nat × List String)) (acc : List (Nat × β)) (j : Nat),
      mapGet (sm.foldl (fun m p => mapSet m p.1 v) acc) j =
        if j ∈ mapKeys sm then some v else mapGet acc j
  | [], acc, j => by simp [mapKeys]
  | p :: sm, acc, j => by
    rw [List.foldl_cons, mapGet_foldl_mapSet_init v sm]
    by_cases hj : j ∈ mapKeys sm
    · rw [if_pos hj, if_pos (by rw [mapKeys_cons]; exact List.mem_cons_of_mem _ hj)]
    · rw [if_neg hj]
      by_cases hjp : j = p.1
      · rw [hjp, mapGet_mapSet_self,
          if_pos (by rw [mapKeys_cons]; exact List.mem_cons_self _ _)]
      · rw [mapGet_mapSet_ne _ _ _ _ hjp,
          if_neg (by rw [mapKeys_cons]; exact fun hm => (List.mem_cons.mp hm).elim hjp hj)]

theorem rank_inner_untouched (cfg : Config) (st : FinderState) (tok : String) :
    ∀ (L : List (Nat × List String))
      (ms : List (Nat × Nat) × List (Nat × Option Nat)) (j : Nat), j ∉ mapKeys L →
      mapGet (L.foldl (fun ms p =>
        let r := scanSentence (sentTokensOf cfg st p.1) tok ((mapGet ms.2 p.1).getD none)
        (mapSet ms.1 p.1 ((mapGet ms.1 p.1).getD 0 + r.1), mapSet ms.2 p.1 r.2)) ms).1 j =
        mapGet ms.1 j ∧
      mapGet (L.foldl (fun ms p =>
        let r := scanSentence (sentTokensOf cfg st p.1) tok ((mapGet ms.2 p.1).getD none)
        (mapSet ms.1 p.1 ((mapGet ms.1 p.1).getD 0 + r.1), mapSet ms.2 p.1 r.2)) ms).2 j =
        mapGet ms.2 j
  | [], ms, j, _ => ⟨rfl, rfl⟩
  | p :: L, ms, j, hj => by
    rw [mapKeys_cons, List.mem_cons, not_or] at hj
    rw [List.foldl_cons]
    obtain ⟨h1, h2⟩ := rank_inner_untouched cfg st tok L _ j hj.2
    rw [h1, h2]
    constructor
    · exact mapGet_mapSet_ne _ _ _ _ hj.1
    · exact mapGet_mapSet_ne _ _ _ _ hj.1

theorem rank_inner_spec (cfg : Config) (st : FinderState) (tok : String) :
    ∀ (L : List (Nat × List String))
      (ms : List (Nat × Nat) × List (Nat × Option Nat)),
      (mapKeys L).Nodup → ∀ j ∈ mapKeys L,
      mapGet (L.foldl (fun ms p =>
        let r := scanSentence (sentTokensOf cfg st p.1) tok ((mapGet ms.2 p.1).getD none)
        (mapSet ms.1 p.1 ((mapGet ms.1 p.1).getD 0 + r.1), mapSet ms.2 p.1 r.2)) ms).1 j =
        some ((mapGet ms.1 j).getD 0 +
          ((sentTokensOf cfg st j).map (fun s => localOcc s.data tok.data)).sum) ∧
      mapGet (L.foldl (fun ms p =>
        let r := scanSentence (sentTokensOf cfg st p.1) tok ((mapGet ms.2 p.1).getD none)
        (mapSet ms.1 p.1 ((mapGet ms.1 p.1).getD 0 + r.1), mapSet ms.2 p.1 r.2)) ms).2 j =
        some ((matchedPos (sentTokensOf cfg st j) tok).foldl minO
          ((mapGet ms.2 j).getD none))
  | [], _, _, j, hj => by simp [mapKeys] at hj
  | p :: L, ms, hnd, j, hj => by
    rw [mapKeys_cons, List.nodup_cons] at hnd
    rw [List.foldl_cons]
    rcases List.mem_cons.mp (by rw [mapKeys_cons] at hj; exact hj) with hjp | hjL
    · subst hjp
      obtain ⟨h1, h2⟩ := rank_inner_untouched cfg st tok L _ p.1 hnd.1
      rw [h1, h2]
      rw [scanSentence_eq]
      constructor
      · rw [mapGet_mapSet_self]
      · rw [mapGet_mapSet_self]
    · have hne : j ≠ p.1 := by
        intro he
        rw [he] at hjL
        exact hnd.1 hjL
      obtain ⟨h1, h2⟩ := rank_inner_spec cfg st tok L _ hnd.2 j hjL
      rw [h1, h2, mapGet_mapSet_ne _ _ _ _ hne, mapGet_mapSet_ne _ _ _ _ hne]
      exact ⟨rfl, rfl⟩

theorem rank_outer_spec (cfg : Config) (st : FinderState)
    (sm : List (Nat × List String)) (hnd : (mapKeys sm).Nodup) :
    ∀ (TS : List String) (S : List (Nat × Nat)) (E : List (Nat × Option Nat)),
      ∀ j ∈ mapKeys sm, ∀ (s0 : Nat) (e0 : Option Nat),
      mapGet S j = some s0 → mapGet E j = some e0 →
      mapGet (TS.foldl (fun ms tok =>
        sm.foldl (fun ms p =>
          let r := scanSentence (sentTokensOf cfg st p.1) tok ((mapGet ms.2 p.1).getD none)
          (mapSet ms.1 p.1 ((mapGet ms.1 p.1).getD 0 + r.1), mapSet ms.2 p.1 r.2)) ms)
        (S, E)).1 j =
        some (s0 + (TS.map (fun tok =>
          ((sentTokensOf cfg st j).map (fun s => localOcc s.data tok.data)).sum)).sum) ∧
      mapGet (TS.foldl (fun ms tok =>
        sm.foldl (fun ms p =>
          let r := scanSentence (sentTokensOf cfg st p.1) tok ((mapGet ms.2 p.1).getD none)
          (mapSet ms.1 p.1 ((mapGet ms.1 p.1).getD 0 + r.1), mapSet ms.2 p.1 r.2)) ms)
        (S, E)).2 j =
        some (((TS.map (fun tok => matchedPos (sentTokensOf cfg st j) tok)).join).foldl
          minO e0)
  | [], S, E, j, hj, s0, e0, hS, hE => by
    rw [List.foldl_nil]
    constructor
    · show mapGet S j = _
      rw [hS]
      simp
    · show mapGet E j = _
      rw [hE]
      rfl
  | tok :: TS, S, E, j, hj, s0, e0, hS, hE => by
    rw [List.foldl_cons]
    obtain ⟨h1, h2⟩ := rank_inner_spec cfg st tok sm (S, E) hnd j hj
    rw [hS] at h1
    rw [hE] at h2
    obtain ⟨h3, h4⟩ := rank_outer_spec cfg st sm hnd TS _ _ j hj _ _ h1 h2
    constructor
    · rw [h3]
      simp only [List.map_cons, List.sum_cons, Option.getD_some]
      refine congrArg some ?_
      omega
    · rw [h4]
      simp only [List.map_cons, List.flatten_cons, Option.getD_some, List.foldl_append]

/-- The ranking score of the sentence at `idx`, as the claim states it: for
every query token and every token of the sentence, the occurrence count
weighted 10 (exact) / 2 (starts-with) / 1 (substring), summed. -/
def specScore (cfg : Config) (st : FinderState) (tokens : List String) (idx : Nat) : Nat :=
  (tokens.map (fun tok =>
    ((sentTokensOf cfg st idx).map
      (fun s => occurrences s tok * weight s.data tok.data)).sum)).sum

/-- The earliest position within the sentence's own token sequence at which
any query token matches (`none` when no token matches anywhere). -/
def specEarliest (cfg : Config) (st : FinderState) (tokens : List String) (idx : Nat) :
    Option Nat :=
  (((sentTokensOf cfg st idx).enum.filter
    (fun p => tokens.any (fun tok => 0 < localOcc p.2.data tok.data))).map Prod.fst).min?

/-- Lexicographic ranking order on (score, earliest match, insertion index):
descending score, then ascending earliest position (`none` = +infinity),
then ascending insertion index. -/
def lexRank (x y : Nat × Option Nat × Nat) : Prop :=
  y.1 < x.1 ∨
    (x.1 = y.1 ∧ (optLtB x.2.1 y.2.1 = true ∨ (x.2.1 = y.2.1 ∧ x.2.2 ≤ y.2.2)))

/-- The claimed order on returned sentences: by score, then earliest match,
then original insertion index (`List.indexOf` in the collection). -/
def specRank (cfg : Config) (st : FinderState) (l : List String) (tokens : List String)
    (a b : String) : Prop :=
  lexRank
    (specScore cfg st tokens (List.indexOf a l),
      specEarliest cfg st tokens (List.indexOf a l), List.indexOf a l)
    (specScore cfg st tokens (List.indexOf b l),
      specEarliest cfg st tokens (List.indexOf b l), List.indexOf b l)

theorem optLtB_irrefl : ∀ x : Option Nat, optLtB x x = false
  | none => rfl
  | some a => by simp [optLtB]

theorem optLtB_trans : ∀ x y z : Option Nat,
    optLtB x y = true → optLtB y z = true → optLtB x z = true := by
  intro x y z h1 h2
  cases x <;> cases y <;> cases z <;> simp [optLtB] at * <;> omega

theorem optLtB_total : ∀ x y : Option Nat, optLtB x y = true ∨ optLtB y x = true ∨ x = y := by
  intro x y
  cases x <;> cases y <;> simp [optLtB] <;> omega

theorem lexRank_ifs (aS bS : Nat) (aE bE : Option Nat) (aI bI : Nat) :
    ((if bS ≠ aS then decide (bS < aS)
      else if aE ≠ bE then optLtB aE bE else decide (aI ≤ bI)) = true) ↔
      lexRank (aS, aE, aI) (bS, bE, bI) := by
  unfold lexRank
  by_cases h1 : bS ≠ aS
  · rw [if_pos h1]
    simp only [decide_eq_true_eq]
    constructor
    · exact Or.inl
    · rintro (h | ⟨heq, _⟩)
      · exact h
      · exact absurd heq.symm h1
  · rw [if_neg h1]
    push_neg at h1
    by_cases h2 : aE ≠ bE
    · rw [if_pos h2]
      constructor
      · intro h
        exact Or.inr ⟨h1.symm, Or.inl h⟩
      · rintro (h | ⟨_, h | ⟨heq, _⟩⟩)
        · omega
        · exact h
        · exact absurd heq h2
    · rw [if_neg h2]
      push_neg at h2
      simp only [decide_eq_true_eq]
      constructor
      · intro h
        exact Or.inr ⟨h1.symm, Or.inr ⟨h2, h⟩⟩
      · rintro (h | ⟨_, h | ⟨_, h⟩⟩)
        · omega
        · rw [h2, optLtB_irrefl] at h
          exact absurd h (by simp)
        · exact h

theorem rankLEb_iff (im : List (String × Nat)) (scoreM : List (Nat × Nat))
    (eM : List (Nat × Option Nat)) (a b : String) :
    rankLEb im scoreM eM a b = true ↔
      lexRank
        ((mapGet scoreM ((mapGet im a).getD 0)).getD 0,
          (mapGet eM ((mapGet im a).getD 0)).getD none, (mapGet im a).getD 0)
        ((mapGet scoreM ((mapGet im b).getD 0)).getD 0,
          (mapGet eM ((mapGet im b).getD 0)).getD none, (mapGet im b).getD 0) :=
  lexRank_ifs _ _ _ _ _ _

theorem lexRank_trans (x y z : Nat × Option Nat × Nat) :
    lexRank x y → lexRank y z → lexRank x z := by
  obtain ⟨xs, xe, xi⟩ := x
  obtain ⟨ys, ye, yi⟩ := y
  obtain ⟨zs, ze, zi⟩ := z
  intro h1 h2
  unfold lexRank at *
  simp only at h1 h2 ⊢
  rcases h1 with h1 | ⟨hs1, h1⟩
  · rcases h2 with h2 | ⟨hs2, _⟩
    · left
      omega
    · left
      omega
  · rcases h2 with h2 | ⟨hs2, h2⟩
    · left
      omega
    · right
      refine ⟨by omega, ?_⟩
      rcases h1 with h1 | ⟨he1, h1⟩
      · rcases h2 with h2 | ⟨he2, _⟩
        · exact Or.inl (optLtB_trans _ _ _ h1 h2)
        · exact Or.inl (he2 ▸ h1)
      · rcases h2 with h2 | ⟨he2, h2⟩
        · left
          rw [he1]
          exact h2
        · right
          exact ⟨he1.trans he2, by omega⟩

theorem lexRank_total (x y : Nat × Option Nat × Nat) : lexRank x y ∨ lexRank y x := by
  obtain ⟨xs, xe, xi⟩ := x
  obtain ⟨ys, ye, yi⟩ := y
  unfold lexRank
  simp only
  rcases Nat.lt_trichotomy ys xs with h | h | h
  · exact Or.inl (Or.inl h)
  · rcases optLtB_total xe ye with h2 | h2 | h2
    · exact Or.inl (Or.inr ⟨h.symm, Or.inl h2⟩)
    · exact Or.inr (Or.inr ⟨h, Or.inl h2⟩)
    · rcases Nat.le_total xi yi with h3 | h3
      · exact Or.inl (Or.inr ⟨h.symm, Or.inr ⟨h2, h3⟩⟩)
      · exact Or.inr (Or.inr ⟨h, Or.inr ⟨h2.symm, h3⟩⟩)
  · exact Or.inr (Or.inl h)

theorem rankLEb_trans (im : List (String × Nat)) (scoreM : List (Nat × Nat))
    (eM : List (Nat × Option Nat)) (a b c : String) (h1 : rankLEb im scoreM eM a b = true)
    (h2 : rankLEb im scoreM eM b c = true) : rankLEb im scoreM eM a c = true :=
  (rankLEb_iff im scoreM eM a c).mpr
    (lexRank_trans _ _ _ ((rankLEb_iff im scoreM eM a b).mp h1)
      ((rankLEb_iff im scoreM eM b c).mp h2))

theorem rankLEb_total (im : List (String × Nat)) (scoreM : List (Nat × Nat))
    (eM : List (Nat × Option Nat)) (a b : String) :
    (rankLEb im scoreM eM a b || rankLEb im scoreM eM b a) = true := by
  rcases lexRank_total
    ((mapGet scoreM ((mapGet im a).getD 0)).getD 0,
      (mapGet eM ((mapGet im a).getD 0)).getD none, (mapGet im a).getD 0)
    ((mapGet scoreM ((mapGet im b).getD 0)).getD 0,
      (mapGet eM ((mapGet im b).getD 0)).getD none, (mapGet im b).getD 0) with h | h
  · rw [Bool.or_eq_true]
    exact Or.inl ((rankLEb_iff im scoreM eM a b).mpr h)
  · rw [Bool.or_eq_true]
    exact Or.inr ((rankLEb_iff im scoreM eM b a).mpr h)

theorem rankMaps_get (cfg : Config) (st : FinderState) (tokens : List String)
    (sm : List (Nat × List String)) (hnd : (mapKeys sm).Nodup) (j : Nat)
    (hj : j ∈ mapKeys sm) :
    mapGet (rankMaps cfg st tokens sm).1 j =
      some ((tokens.map (fun tok =>
        ((sentTokensOf cfg st j).map (fun s => localOcc s.data tok.data)).sum)).sum) ∧
    mapGet (rankMaps cfg st tokens sm).2 j =
      some (((tokens.map (fun tok => matchedPos (sentTokensOf cfg st j) tok)).join).foldl
        minO none) := by
  have hS : mapGet (sm.foldl (fun m p => mapSet m p.1 0) ([] : List (Nat × Nat))) j =
      some 0 := by
    rw [mapGet_foldl_mapSet_init, if_pos hj]
  have hE : mapGet (sm.foldl (fun m p => mapSet m p.1 none)
      ([] : List (Nat × Option Nat))) j = some none := by
    rw [mapGet_foldl_mapSet_init, if_pos hj]
  obtain ⟨h1, h2⟩ := rank_outer_spec cfg st sm hnd tokens _ _ j hj 0 none hS hE
  constructor
  · rw [show (rankMaps cfg st tokens sm).1 = (tokens.foldl (fun ms tok =>
      sm.foldl (fun ms p =>
        let r := scanSentence (sentTokensOf cfg st p.1) tok ((mapGet ms.2 p.1).getD none)
        (mapSet ms.1 p.1 ((mapGet ms.1 p.1).getD 0 + r.1), mapSet ms.2 p.1 r.2)) ms)
      (sm.foldl (fun m p => mapSet m p.1 0) [],
        sm.foldl (fun m p => mapSet m p.1 none) [])).1 from rfl]
    rw [h1]
    simp
  · rw [show (rankMaps cfg st tokens sm).2 = (tokens.foldl (fun ms tok =>
      sm.foldl (fun ms p =>
        let r := scanSentence (sentTokensOf cfg st p.1) tok ((mapGet ms.2 p.1).getD none)
        (mapSet ms.1 p.1 ((mapGet ms.1 p.1).getD 0 + r.1), mapSet ms.2 p.1 r.2)) ms)
      (sm.foldl (fun m p => mapSet m p.1 0) [],
        sm.foldl (fun m p => mapSet m p.1 none) [])).2 from rfl]
    rw [h2]

theorem score_eq_spec (cfg : Config) (st : FinderState) (tokens : List String) (j : Nat) :
    (tokens.map (fun tok =>
      ((sentTokensOf cfg st j).map (fun s => localOcc s.data tok.data)).sum)).sum =
      specScore cfg st tokens j := by
  unfold specScore
  have hfun : (fun tok =>
      ((sentTokensOf cfg st j).map (fun s => localOcc s.data tok.data)).sum) =
      (fun tok => ((sentTokensOf cfg st j).map
        (fun s => occurrences s tok * weight s.data tok.data)).sum) := by
    funext tok
    have : (fun s => localOcc s.data tok.data) =
        (fun s => occurrences s tok * weight s.data tok.data) := by
      funext s
      exact localOcc_eq s tok
    rw [this]
  rw [hfun]

theorem natMin?_congr (L1 L2 : List Nat) (h : ∀ x, x ∈ L1 ↔ x ∈ L2) :
    L1.min? = L2.min? := by
  have hmin : ∀ (L : List Nat) (a : Nat), L.min? = some a ↔ a ∈ L ∧ ∀ b ∈ L, a ≤ b := by
    intro L a
    exact List.min?_eq_some_iff (fun x => le_refl x) (fun x y => min_choice x y)
      (fun x y z => le_min_iff)
  cases h1 : L1.min? with
  | none =>
    rw [List.min?_eq_none_iff] at h1
    subst h1
    rcases h2 : L2.min? with _ | a
    · rfl
    · obtain ⟨hmem, _⟩ := (hmin L2 a).mp h2
      exact absurd ((h a).mpr hmem) (List.not_mem_nil a)
  | some a =>
    obtain ⟨hmem, hbound⟩ := (hmin L1 a).mp h1
    exact ((hmin L2 a).mpr ⟨(h a).mp hmem, fun b hb => hbound b ((h b).mpr hb)⟩).symm

theorem earliest_eq_spec (cfg : Config) (st : FinderState) (tokens : List String) (j : Nat) :
    ((tokens.map (fun tok => matchedPos (sentTokensOf cfg st j) tok)).join).foldl
      minO none = specEarliest cfg st tokens j := by
  rw [foldl_minO_none_eq_min?]
  unfold specEarliest
  apply natMin?_congr
  intro x
  rw [List.mem_join]
  constructor
  · rintro ⟨L, hL, hx⟩
    obtain ⟨tok, htok, rfl⟩ := List.mem_map.mp hL
    unfold matchedPos at hx
    obtain ⟨p, hp, rfl⟩ := List.mem_map.mp hx
    rw [List.mem_filter] at hp
    refine List.mem_map.mpr ⟨p, List.mem_filter.mpr ⟨hp.1, ?_⟩, rfl⟩
    rw [List.any_eq_true]
    exact ⟨tok, htok, hp.2⟩
  · intro hx
    obtain ⟨p, hp, rfl⟩ := List.mem_map.mp hx
    rw [List.mem_filter] at hp
    obtain ⟨tok, htok, hlo⟩ := List.any_eq_true.mp hp.2
    refine ⟨matchedPos (sentTokensOf cfg st j) tok, List.mem_map_of_mem _ htok, ?_⟩
    unfold matchedPos
    exact List.mem_map.mpr ⟨p, List.mem_filter.mpr ⟨hp.1, hlo⟩, rfl⟩

theorem foldl_mapSet_pairs_untouched :
    ∀ (L : List (Nat × String)) (acc : List (String × Nat)) (s : String),
      s ∉ L.map Prod.snd →
      mapGet (L.foldl (fun m p => mapSet m p.2 p.1) acc) s = mapGet acc s
  | [], _, _, _ => rfl
  | p :: L, acc, s, hs => by
    rw [List.map_cons, List.mem_cons, not_or] at hs
    rw [List.foldl_cons, foldl_mapSet_pairs_untouched L _ s hs.2,
      mapGet_mapSet_ne _ _ _ _ hs.1]

theorem foldl_mapSet_pairs_get :
    ∀ (L : List (Nat × String)) (acc : List (String × Nat)) (i : Nat) (s : String),
      (L.map Prod.snd).Nodup → (i, s) ∈ L →
      mapGet (L.foldl (fun m p => mapSet m p.2 p.1) acc) s = some i
  | [], _, _, _, _, hmem => absurd hmem (List.not_mem_nil _)
  | p :: L, acc, i, s, hnd, hmem => by
    rw [List.map_cons, List.nodup_cons] at hnd
    rw [List.foldl_cons]
    rcases List.mem_cons.mp hmem with rfl | hmem'
    · rw [foldl_mapSet_pairs_untouched L _ _ hnd.1, mapGet_mapSet_self]
    · exact foldl_mapSet_pairs_get L _ i s hnd.2 hmem'

theorem initState_index_map_get (cfg : Config) (l : List String) (hl : l.Nodup) (i : Nat)
    (hi : i < l.length) :
    mapGet (initState cfg l).index_map (l.getD i "") = some i := by
  rw [initState_index_map]
  refine foldl_mapSet_pairs_get l.enum [] i (l.getD i "") ?_ ?_
  · rw [List.enum_map_snd]
    exact hl
  · rw [List.mem_enum_iff_getElem?, ← List.get?_eq_getElem?]
    exact get?_eq_some_getD l i hi

/-- On every sentence text returned by the search, the values the comparator
reads out of `index_map`, `scoreMap` and `earliestMatchMap` are exactly the
specification-level score, earliest match position and insertion index. -/
theorem c5_key_fact (cfg : Config) (l : List String) (ts : List String) (pmode : Bool)
    (mm : Nat) (hl : l.Nodup) (a : String)
    (ha : a ∈ ((buildMatches (initState cfg l).dictionary ts pmode).filter
        (fun p => mm ≤ p.2.length)).map
        (fun p => (initState cfg l).collection.getD p.1 "")) :
    ((mapGet (rankMaps cfg (initState cfg l) ts
          (buildMatches (initState cfg l).dictionary ts pmode)).1
        ((mapGet (initState cfg l).index_map a).getD 0)).getD 0,
      (mapGet (rankMaps cfg (initState cfg l) ts
          (buildMatches (initState cfg l).dictionary ts pmode)).2
        ((mapGet (initState cfg l).index_map a).getD 0)).getD none,
      (mapGet (initState cfg l).index_map a).getD 0) =
    (specScore cfg (initState cfg l) ts (List.indexOf a l),
      specEarliest cfg (initState cfg l) ts (List.indexOf a l), List.indexOf a l) := by
  obtain ⟨p, hpf, heq⟩ := List.mem_map.mp ha
  rw [List.mem_filter] at hpf
  obtain ⟨hpmem, _⟩ := hpf
  have hkey : p.1 ∈ mapKeys (buildMatches (initState cfg l).dictionary ts pmode) :=
    List.mem_map_of_mem Prod.fst hpmem
  have hget : mapGet (buildMatches (initState cfg l).dictionary ts pmode) p.1 = some p.2 :=
    mapGet_eq_some_of_mem_nodup _ _ _ (buildMatches_keys_nodup _ _ _) hpmem
  rw [mapGet_buildMatches] at hget
  rcases entryFold_none_char _ _ p.1 ts with ⟨hnone, _⟩ | ⟨e, he, _, hne0, hch⟩
  · rw [hnone] at hget
    exact absurd hget (by simp)
  · have hep : e = p.2 := Option.some.inj (he.symm.trans hget)
    obtain ⟨t0, ht0⟩ := List.exists_mem_of_ne_nil _ hne0
    have hc0 := ((hch t0).mp ht0).2
    have hrange : p.1 < l.length := contributes_in_range cfg l pmode t0 p.1 hc0
    have ha' : a = l.getD p.1 "" := by
      rw [← heq, initState_collection]
    have him : mapGet (initState cfg l).index_map a = some p.1 := by
      rw [ha']
      exact initState_index_map_get cfg l hl p.1 hrange
    have hidx : List.indexOf a l = p.1 := by
      rw [ha', getD_get l p.1 hrange]
      exact List.get_indexOf hl ⟨p.1, hrange⟩
    obtain ⟨hs, he2⟩ := rankMaps_get cfg (initState cfg l) ts
      (buildMatches (initState cfg l).dictionary ts pmode)
      (buildMatches_keys_nodup _ _ _) p.1 hkey
    rw [him, hidx]
    simp only [Option.getD_some]
    rw [hs, he2]
    simp only [Option.getD_some]
    rw [score_eq_spec, earliest_eq_spec]

/-- Claim C5: with `ranked = true` on an initialized index over distinct
sentence texts, the returned results are a permutation of the unranked
(filtered) results, sorted by the claimed order: descending score (10 per
exact-token occurrence, 2 per starts-with occurrence, 1 per substring
occurrence, summed over all query tokens and sentence tokens), ties broken
by ascending earliest-match token position, remaining ties by ascending
original insertion index.  Being a pure function of its inputs, the output
is deterministic for identical inputs and unchanged index state. -/
theorem c5_ranked_sorted (cfg : Config) (l : List String) (q : String) (opts : SearchOpts)
    (hr : opts.ranked = true) (hl : l.Nodup) :
    List.Sorted
      (specRank cfg (initState cfg l) l
        ((cfg.tokenizer q).map (normalize_word cfg.case_sensitive)))
      (searchFull cfg (initState cfg l) q opts).results ∧
    (searchFull cfg (initState cfg l) q opts).results.Perm
      (searchFull cfg (initState cfg l) q
        { ranked := false, min_match_opt := opts.min_match_opt,
          pmode := opts.pmode }).results := by
  simp only [searchFull]
  by_cases hb : isBlank q = true
  · rw [if_pos hb, if_pos hb]
    exact ⟨List.sorted_nil, List.Perm.refl _⟩
  · rw [if_neg hb, if_neg hb]
    by_cases h0 : ((cfg.tokenizer q).map (normalize_word cfg.case_sensitive)).length = 0
    · rw [if_pos h0, if_pos h0]
      exact ⟨List.sorted_nil, List.Perm.refl _⟩
    · rw [if_neg h0, if_neg h0, hr]
      rw [if_pos rfl, if_neg (by simp)]
      constructor
      · have hpair := @List.sorted_mergeSort String
          (rankLEb (initState cfg l).index_map
            (rankMaps cfg (initState cfg l)
              ((cfg.tokenizer q).map (normalize_word cfg.case_sensitive))
              (buildMatches (initState cfg l).dictionary
                ((cfg.tokenizer q).map (normalize_word cfg.case_sensitive)) opts.pmode)).1
            (rankMaps cfg (initState cfg l)
              ((cfg.tokenizer q).map (normalize_word cfg.case_sensitive))
              (buildMatches (initState cfg l).dictionary
                ((cfg.tokenizer q).map (normalize_word cfg.case_sensitive)) opts.pmode)).2)
          (fun a b c h1 h2 => rankLEb_trans _ _ _ a b c h1 h2)
          (fun a b => rankLEb_total _ _ _ a b)
          (((buildMatches (initState cfg l).dictionary
              ((cfg.tokenizer q).map (normalize_word cfg.case_sensitive)) opts.pmode).filter
            (fun p => opts.min_match_opt.getD cfg.min_match_count ≤ p.2.length)).map
            (fun p => (initState cfg l).collection.getD p.1 ""))
        refine List.Pairwise.imp_of_mem ?_ hpair
        intro a b hma hmb hab
        have hma' := (List.mergeSort_perm _ _).mem_iff.mp hma
        have hmb' := (List.mergeSort_perm _ _).mem_iff.mp hmb
        unfold specRank
        rw [← c5_key_fact cfg l _ opts.pmode _ hl a hma',
          ← c5_key_fact cfg l _ opts.pmode _ hl b hmb']
        exact (rankLEb_iff _ _ _ a b).mp hab
      · exact List.mergeSort_perm _ _

theorem c5_ranked_sorted_witness :
    List.Sorted
      (specRank defaultConfig (initState defaultConfig ["slow dog", "fox fox"])
        ["slow dog", "fox fox"]
        ((defaultConfig.tokenizer "fox").map (normalize_word defaultConfig.case_sensitive)))
      (searchFull defaultConfig (initState defaultConfig ["slow dog", "fox fox"]) "fox"
        { ranked := true, min_match_opt := none, pmode := false }).results ∧
    (searchFull defaultConfig (initState defaultConfig ["slow dog", "fox fox"]) "fox"
        { ranked := true, min_match_opt := none, pmode := false }).results.Perm
      (searchFull defaultConfig (initState defaultConfig ["slow dog", "fox fox"]) "fox"
        { ranked := false, min_match_opt := none, pmode := false }).results :=
  c5_ranked_sorted defaultConfig ["slow dog", "fox fox"] "fox"
    { ranked := true, min_match_opt := none, pmode := false } rfl (by decide)
